import Mathlib

/-!
Verification of the Two Worlds PAR editor's core logic
(`src/TW_Par_Editor_EN/tw1_par_editorV2_1.py`): the PAR binary codec
(`read_par` / `write_par`), the zlib envelope plumbing
(`decompress_par_file` / `compress_par_file`), and the compare/merge engine
(`_cmp_fields_equal`, `_cmp_run_compare`, `_cmp_merge`).

Modelling conventions:
* A byte is `Fin 256`; a Python `bytes` buffer is a `List Byte`.
* Python `str` is a list of Unicode code points (`List Nat`).  `bytes.decode`
  with `errors='replace'` maps a byte `b < 128` to itself and any other byte
  to U+FFFD (65533); `str.encode('ascii', errors='replace')` maps a code
  point `c < 128` to itself and anything else to `?` (63).
* A 32-bit float is modelled by its raw IEEE-754 bit pattern (a `Nat` below
  `2^32`): `struct.unpack('<f')` followed by `struct.pack('<f')` is the
  identity on these bits.  The diff engine's tolerance comparison
  `abs(a - b) < 1e-7` is modelled on the exact rational values of the two
  bit patterns, with NaN and infinite operands compared unequal exactly as
  the Python float comparison evaluates them.
* Fallible Python code (struct reads past the end, `IndexError`, raised
  `ValueError`) is modelled with `Option`: `none` is an uncaught exception.
* Readers consume a prefix of the buffer and return the parsed value plus
  the unconsumed tail, mirroring `ParReader.pos` advancing through `data`.
-/

abbrev Byte := Fin 256

/-- Truncate a natural number to one byte, as `struct.pack('<B', v & 0xFF)` does. -/
def byte (n : Nat) : Byte := ⟨n % 256, Nat.mod_lt _ (by norm_num)⟩

/-- `ParReader.read_u8`: one little-endian unsigned byte. -/
def readU8 : List Byte → Option (Nat × List Byte)
  | b :: rest => some (b.val, rest)
  | _ => none

/-- `ParReader.read_i8`: one signed byte (two's complement). -/
def readI8 : List Byte → Option (Int × List Byte)
  | b :: rest => some (if b.val < 128 then (b.val : Int) else (b.val : Int) - 256, rest)
  | _ => none

/-- `ParReader.read_u16`: little-endian 16-bit unsigned integer. -/
def readU16 : List Byte → Option (Nat × List Byte)
  | b0 :: b1 :: rest => some (b0.val + 256 * b1.val, rest)
  | _ => none

/-- `ParReader.read_u32`: little-endian 32-bit unsigned integer. -/
def readU32 : List Byte → Option (Nat × List Byte)
  | b0 :: b1 :: b2 :: b3 :: rest =>
      some (b0.val + 256 * b1.val + 65536 * b2.val + 16777216 * b3.val, rest)
  | _ => none

/-- `ParReader.read_u64`: little-endian 64-bit unsigned integer. -/
def readU64 : List Byte → Option (Nat × List Byte)
  | b0 :: b1 :: b2 :: b3 :: b4 :: b5 :: b6 :: b7 :: rest =>
      some (b0.val + 256 * b1.val + 65536 * b2.val + 16777216 * b3.val
            + 4294967296 * b4.val + 1099511627776 * b5.val
            + 281474976710656 * b6.val + 72057594037927936 * b7.val, rest)
  | _ => none

/-- Reinterpret a 32-bit unsigned value as signed (`struct '<i'` vs `'<I'`). -/
def toI32 (v : Nat) : Int :=
  if v < 2147483648 then (v : Int) else (v : Int) - 4294967296

/-- `ParReader.read_i32`: little-endian 32-bit signed integer. -/
def readI32 (l : List Byte) : Option (Int × List Byte) :=
  (readU32 l).map (fun p => (toI32 p.1, p.2))

/-- `ParReader.read_f32`: a 32-bit float, kept as its raw bit pattern. -/
def readF32 (l : List Byte) : Option (Nat × List Byte) :=
  readU32 l

/-- Decoding one byte of `raw.decode('ascii', errors='replace')`. -/
def decodeAsciiByte (b : Byte) : Nat :=
  if b.val < 128 then b.val else 65533

/-- `ParReader.read_delphi_string`: u32 length, sanity ceiling 10^6, then that
many bytes decoded permissively to code points. -/
def read_delphi_string (l : List Byte) : Option (List Nat × List Byte) := do
  let (len, r1) ← readU32 l
  if len > 1000000 then none
  else if r1.length < len then none
  else pure ((r1.take len).map decodeAsciiByte, r1.drop len)

/-- Read `n` consecutive values with the element reader `re`; models the
`for _ in range(n)` read loops of the source. -/
def readElems (re : List Byte → Option (α × List Byte)) :
    Nat → List Byte → Option (List α × List Byte)
  | 0, l => some ([], l)
  | n + 1, l => do
    let (v, r1) ← re l
    let (vs, r2) ← readElems re n r1
    pure (v :: vs, r2)

/-- `_read_extra_array` / `_read_extra_string_array`: u64 presence marker,
`0` meaning an empty array, anything else followed by a u32 count and that
many elements.  The source dispatches on a format character; here the
element reader is passed directly. -/
def read_extra_array (re : List Byte → Option (α × List Byte)) (l : List Byte) :
    Option (List α × List Byte) := do
  let (check, r1) ← readU64 l
  if check = 0 then pure (([] : List α), r1)
  else do
    let (len, r2) ← readU32 r1
    readElems re len r2

/-- The run-time value of a `ParField`, one shape per wire type tag. -/
inductive ParValue where
  | vint : Int → ParValue
  | vfloat : Nat → ParValue
  | vuint : Nat → ParValue
  | vstr : List Nat → ParValue
  | vintArr : List Int → ParValue
  | vfloatArr : List Nat → ParValue
  | vuintArr : List Nat → ParValue
  | vstrArr : List (List Nat) → ParValue
  deriving DecidableEq

/-- `ParField`: a type tag (0..7) and a value. -/
structure ParField where
  dtype : Nat
  value : ParValue
  deriving DecidableEq

/-- `ParEntry`: a named entry with opaque tags and ordered fields. -/
structure ParEntry where
  name : List Nat
  unknown_byte : Int
  unknown_u16a : Nat
  unknown_u16b : Nat
  fields : List ParField
  deriving DecidableEq

/-- `ParList`: two opaque u32 tags and an ordered entry sequence. -/
structure ParList where
  unknown1 : Nat
  unknown2 : Nat
  entries : List ParEntry
  deriving DecidableEq

/-- `ParFile`: version, lists, and the verbatim trailing bytes (`[]` models
Python's `None`, since an empty tail is appended as nothing on write). -/
structure ParFile where
  version : Nat
  lists : List ParList
  trailing_data : List Byte
  deriving DecidableEq

/-- The typed-field dispatch of `read_par`'s inner loop. -/
def readFieldValue (dtype : Nat) (l : List Byte) : Option (ParValue × List Byte) :=
  if dtype = 0 then (readI32 l).map (fun p => (.vint p.1, p.2))
  else if dtype = 1 then (readF32 l).map (fun p => (.vfloat p.1, p.2))
  else if dtype = 2 then (readU32 l).map (fun p => (.vuint p.1, p.2))
  else if dtype = 3 then (read_delphi_string l).map (fun p => (.vstr p.1, p.2))
  else if dtype = 4 then (read_extra_array readI32 l).map (fun p => (.vintArr p.1, p.2))
  else if dtype = 5 then (read_extra_array readF32 l).map (fun p => (.vfloatArr p.1, p.2))
  else if dtype = 6 then (read_extra_array readU32 l).map (fun p => (.vuintArr p.1, p.2))
  else if dtype = 7 then (read_extra_array read_delphi_string l).map (fun p => (.vstrArr p.1, p.2))
  else none

/-- Read one field value per type tag of the type vector, in order. -/
def readFields : List Nat → List Byte → Option (List ParField × List Byte)
  | [], l => some ([], l)
  | d :: ds, l => do
    let (v, r1) ← readFieldValue d l
    let (fs, r2) ← readFields ds r1
    pure (⟨d, v⟩ :: fs, r2)

/-- One entry of `read_par`: name, signed byte, field count, two u16 tags,
the type vector, then the field values. -/
def readEntry (l : List Byte) : Option (ParEntry × List Byte) := do
  let (nm, r1) ← read_delphi_string l
  let (ub, r2) ← readI8 r1
  let (cnt, r3) ← readU16 r2
  let (ua, r4) ← readU16 r3
  let (ub16, r5) ← readU16 r4
  let (tl, r6) ← readElems readU8 cnt r5
  let (fs, r7) ← readFields tl r6
  pure ({ name := nm, unknown_byte := ub, unknown_u16a := ua,
          unknown_u16b := ub16, fields := fs }, r7)

/-- One list of `read_par`: two opaque tags, entry count, entries. -/
def readList (l : List Byte) : Option (ParList × List Byte) := do
  let (u1, r1) ← readU32 l
  let (u2, r2) ← readU32 r1
  let (ec, r3) ← readU32 r2
  let (es, r4) ← readElems readEntry ec r3
  pure ({ unknown1 := u1, unknown2 := u2, entries := es }, r4)

/-- The literal `b'PAR\x00'`. -/
def PAR_MAGIC : List Byte := [80, 65, 82, 0]

/-- `read_par`: magic, version, list count, reserved pad word (read but
discarded), the lists, and whatever remains as `trailing_data`. -/
def read_par (data : List Byte) : Option ParFile :=
  if data.take 4 = PAR_MAGIC then do
    let (ver, r1) ← readU32 (data.drop 4)
    let (lc, r2) ← readU32 r1
    let (_pad, r3) ← readU32 r2
    let (ls, r4) ← readElems readList lc r3
    pure { version := ver, lists := ls, trailing_data := r4 }
  else none

/-- `ParWriter.write_u8`. -/
def writeU8 (v : Nat) : List Byte := [byte v]

/-- `ParWriter.write_u16`. -/
def writeU16 (v : Nat) : List Byte := [byte v, byte (v / 256)]

/-- `ParWriter.write_u32`. -/
def writeU32 (v : Nat) : List Byte :=
  [byte v, byte (v / 256), byte (v / 65536), byte (v / 16777216)]

/-- `ParWriter.write_u64`. -/
def writeU64 (v : Nat) : List Byte :=
  [byte v, byte (v / 256), byte (v / 65536), byte (v / 16777216),
   byte (v / 4294967296), byte (v / 1099511627776),
   byte (v / 281474976710656), byte (v / 72057594037927936)]

/-- `ParWriter.write_i8`; on the in-range values `struct.pack('<b')` accepts,
two's complement is `v mod 256`. -/
def writeI8 (v : Int) : List Byte := [byte (v % 256).toNat]

/-- `ParWriter.write_i32`. -/
def writeI32 (v : Int) : List Byte := writeU32 (v % 4294967296).toNat

/-- `ParWriter.write_f32` on the stored bit pattern. -/
def writeF32 (bits : Nat) : List Byte := writeU32 bits

/-- One code point of `s.encode('ascii', errors='replace')`. -/
def encodeAsciiChar (c : Nat) : Byte := byte (if c < 128 then c else 63)

/-- `ParWriter.write_delphi_string`: u32 byte count then the encoded bytes. -/
def write_delphi_string (s : List Nat) : List Byte :=
  writeU32 s.length ++ s.map encodeAsciiChar

/-- `_write_extra_array` / `_write_extra_string_array`: empty arrays are a
lone u64 `0`; otherwise u64 `1`, a u32 count, and the elements in order. -/
def write_extra_array (we : α → List Byte) (vs : List α) : List Byte :=
  if vs.isEmpty then writeU64 0
  else writeU64 1 ++ writeU32 vs.length ++ (vs.map we).flatten

/-- The typed-field dispatch of `write_par`'s inner loop.  A tag whose value
has a mismatching run-time shape never arises from decoding or merging; the
source would coerce it, which is out of scope, so the model emits nothing. -/
def writeFieldValue (f : ParField) : List Byte :=
  match f.dtype, f.value with
  | 0, .vint v => writeI32 v
  | 1, .vfloat b => writeF32 b
  | 2, .vuint v => writeU32 v
  | 3, .vstr s => write_delphi_string s
  | 4, .vintArr vs => write_extra_array writeI32 vs
  | 5, .vfloatArr vs => write_extra_array writeF32 vs
  | 6, .vuintArr vs => write_extra_array writeU32 vs
  | 7, .vstrArr vs => write_extra_array write_delphi_string vs
  | _, _ => []

/-- One entry of `write_par`: name, signed byte, `len(entry.fields)` as the
field count, the two u16 tags, all type tags, then all field values. -/
def writeEntry (e : ParEntry) : List Byte :=
  write_delphi_string e.name ++ writeI8 e.unknown_byte
    ++ writeU16 e.fields.length ++ writeU16 e.unknown_u16a ++ writeU16 e.unknown_u16b
    ++ (e.fields.map (fun f => writeU8 f.dtype)).flatten
    ++ (e.fields.map writeFieldValue).flatten

/-- One list of `write_par`. -/
def writeList (pl : ParList) : List Byte :=
  writeU32 pl.unknown1 ++ writeU32 pl.unknown2
    ++ writeU32 pl.entries.length ++ (pl.entries.map writeEntry).flatten

/-- `write_par`: magic, version, list count, a reserved word always written
as `0`, the lists, then the trailing bytes verbatim. -/
def write_par (par : ParFile) : List Byte :=
  PAR_MAGIC ++ writeU32 par.version ++ writeU32 par.lists.length ++ writeU32 0
    ++ (par.lists.map writeList).flatten ++ par.trailing_data

/-- Well-formedness of a field: the tag matches the value's shape and every
number, string and count fits the width the wire format stores it in. -/
def wfField (f : ParField) : Bool :=
  match f.dtype, f.value with
  | 0, .vint v => decide (-2147483648 ≤ v ∧ v < 2147483648)
  | 1, .vfloat b => decide (b < 4294967296)
  | 2, .vuint v => decide (v < 4294967296)
  | 3, .vstr s => decide (s.length ≤ 1000000) && s.all (fun c => c < 128)
  | 4, .vintArr vs =>
      decide (vs.length < 4294967296)
        && vs.all (fun v => decide (-2147483648 ≤ v ∧ v < 2147483648))
  | 5, .vfloatArr vs => decide (vs.length < 4294967296) && vs.all (fun b => b < 4294967296)
  | 6, .vuintArr vs => decide (vs.length < 4294967296) && vs.all (fun v => v < 4294967296)
  | 7, .vstrArr vs =>
      decide (vs.length < 4294967296)
        && vs.all (fun s => decide (s.length ≤ 1000000) && s.all (fun c => c < 128))
  | _, _ => false

/-- Well-formedness of an entry: ASCII name within the sanity ceiling,
in-range opaque tags, fewer than 2^16 fields, all fields well-formed. -/
def wfEntry (e : ParEntry) : Bool :=
  decide (e.name.length ≤ 1000000) && e.name.all (fun c => c < 128)
    && decide (-128 ≤ e.unknown_byte ∧ e.unknown_byte < 128)
    && decide (e.fields.length < 65536)
    && decide (e.unknown_u16a < 65536) && decide (e.unknown_u16b < 65536)
    && e.fields.all wfField

/-- Well-formedness of a list. -/
def wfList (pl : ParList) : Bool :=
  decide (pl.unknown1 < 4294967296) && decide (pl.unknown2 < 4294967296)
    && decide (pl.entries.length < 4294967296) && pl.entries.all wfEntry

/-- Well-formedness of a whole file. -/
def wfParFile (par : ParFile) : Bool :=
  decide (par.version < 4294967296) && decide (par.lists.length < 4294967296)
    && par.lists.all wfList

/-- `decompress_par_file`, with the zlib decompressor abstracted: `dec raw`
returns the first decompressed stream and the unused trailing input, or
`none` on a zlib error.  The source checks the zlib CMF signature byte
`0x78`, decompresses stream 1, and if trailing input remains decompresses
it as stream 2, which must start with the PAR magic. -/
def decompress_par_file (dec : List Byte → Option (List Byte × List Byte))
    (raw : List Byte) : Option (List Byte × Option (List Byte) × Bool) :=
  if raw.length < 4 ∨ raw.head? ≠ some (120 : Byte) then
    if raw.take 4 = PAR_MAGIC then some (raw, none, false) else none
  else
    match dec raw with
    | none => none
    | some (wrapper, remaining) =>
      if remaining.isEmpty then
        if wrapper.take 4 = PAR_MAGIC then some (wrapper, none, true) else none
      else
        match dec remaining with
        | none => none
        | some (par_data, _unused2) =>
          if par_data.take 4 = PAR_MAGIC then some (par_data, some wrapper, true) else none

/-- `compress_par_file`, with the zlib compressor abstracted: with a wrapper
header the two streams are compressed independently and concatenated. -/
def compress_par_file (comp : List Byte → List Byte)
    (par_data : List Byte) (wrapper : Option (List Byte)) : List Byte :=
  match wrapper with
  | some w => comp w ++ comp par_data
  | none => comp par_data

/-- Classification tag of a diff record. -/
inductive DiffType where
  | changed
  | input_only
  | source_only
  deriving DecidableEq

/-- A displayed value of a diff record.  The source stores strings produced
by `_cmp_field_value_str`; the model keeps the data the formatter was
applied to, so equal `DispVal`s always render to equal strings.  (The
formatter is not injective, and it renders both `'—'` literals and a `None`
field as the same dash; no property below depends on that collapse.) -/
inductive DispVal where
  | dash
  | fieldTally (n : Nat)
  | fieldVal (f : Option ParField)
  deriving DecidableEq

/-- One record of `self.cmp_diffs` as built by `_cmp_run_compare`. -/
structure DiffRec where
  rtype : DiffType
  list_idx : Nat
  entry_name : List Nat
  field_idx : Int
  field_label : List Nat
  source_val : DispVal
  input_val : DispVal
  original_val : DispVal
  src_li : Int
  src_ei : Int
  inp_li : Int
  inp_ei : Int
  deriving DecidableEq

/-- IEEE-754 single: exponent field all ones, fraction nonzero. -/
def isNaN32 (bits : Nat) : Bool :=
  bits / 8388608 % 256 = 255 && bits % 8388608 ≠ 0

/-- IEEE-754 single: exponent field all ones, fraction zero. -/
def isInf32 (bits : Nat) : Bool :=
  bits / 8388608 % 256 = 255 && bits % 8388608 = 0

/-- The exact rational value of a finite IEEE-754 single bit pattern:
`(2^23 + f)·2^e / 2^150` for normal numbers, `2f / 2^150` subnormal. -/
def toRat32 (bits : Nat) : Rat :=
  let sgn := bits / 2147483648
  let ex := bits / 8388608 % 256
  let frac := bits % 8388608
  let num : Nat := if ex = 0 then 2 * frac else (8388608 + frac) * 2 ^ ex
  let mag : Rat := (num : Rat) / ((2 : Rat) ^ 150)
  if sgn = 1 then -mag else mag

/-- The float branch of `_cmp_fields_equal`: `abs(a - b) < 1e-7`.  A NaN on
either side makes every comparison false, and any infinity makes the
difference infinite or NaN, hence also false; finite operands compare by
value within the tolerance.  (`1e-7` denotes the binary64 nearest `10^-7`;
the difference is far below anything the properties here exercise.) -/
def floatEqTol (a b : Nat) : Bool :=
  if isNaN32 a || isNaN32 b || isInf32 a || isInf32 b then false
  else decide (|toRat32 a - toRat32 b| < (1 : Rat) / 10000000)

/-- `_cmp_fields_equal`: type tags must match; two scalar floats compare
within the absolute tolerance; everything else compares by value. -/
def cmp_fields_equal (f1 f2 : ParField) : Bool :=
  if f1.dtype ≠ f2.dtype then false
  else
    match f1.value, f2.value with
    | .vfloat a, .vfloat b => floatEqTol a b
    | v1, v2 => decide (v1 = v2)

/-- The `src_by_name` / `inp_by_name` dictionaries of `_cmp_run_compare`:
built by one pass of `src_by_name[e.name] = (ei, e)`, so a later duplicate
name overwrites an earlier one. -/
def byName (es : List ParEntry) : List Nat → Option (Nat × ParEntry) :=
  es.enum.foldl
    (fun m (p : Nat × ParEntry) => fun nm => if nm = p.2.name then some p else m nm)
    (fun _ => none)

/-- Lexicographic order on code-point lists, as Python string `<`. -/
def lexLe : List Nat → List Nat → Bool
  | [], _ => true
  | _ :: _, [] => false
  | a :: s, b :: t => if a < b then true else if b < a then false else lexLe s t

/-- Insert a name into an already sorted list of names. -/
def insertSorted (nm : List Nat) : List (List Nat) → List (List Nat)
  | [] => [nm]
  | x :: xs => if lexLe nm x then nm :: x :: xs else x :: insertSorted nm xs

/-- Insertion sort by `lexLe`; a kernel-reducible model of Python `sorted`
(on the duplicate-free name sets it is applied to, any correct sort agrees
with it). -/
def sortNames : List (List Nat) → List (List Nat)
  | [] => []
  | x :: xs => insertSorted x (sortNames xs)

/-- `sorted(set(src names + inp names))`: the union of the entry names of
both sides, without duplicates, in sorted order. -/
def sortedNames (ses ies : List ParEntry) : List (List Nat) :=
  sortNames ((ses.map (fun e => e.name)) ++ (ies.map (fun e => e.name))).dedup

/-- The field-by-field comparison loop for one name present on both sides. -/
def diffEntryFields (labels : Nat → Nat → Option (List Nat)) (field_count li : Nat)
    (nm : List Nat) (sei iei : Nat) (se ie : ParEntry) (oe : Option ParEntry) :
    List DiffRec :=
  (List.range (max se.fields.length ie.fields.length)).filterMap (fun fi =>
    let sf := se.fields[fi]?
    let inpf := ie.fields[fi]?
    let origf : Option ParField := match oe with
      | some o => o.fields[fi]?
      | none => none
    let skip := match sf, inpf with
      | some a, some b => cmp_fields_equal a b
      | _, _ => false
    if skip then none
    else some
      { rtype := .changed, list_idx := li, entry_name := nm, field_idx := (fi : Int),
        field_label := (labels field_count fi).getD [],
        source_val := .fieldVal sf, input_val := .fieldVal inpf,
        original_val := match origf with
          | some f => .fieldVal (some f)
          | none => .dash,
        src_li := (li : Int), src_ei := (sei : Int),
        inp_li := (li : Int), inp_ei := (iei : Int) })

/-- The both-lists-present branch of `_cmp_run_compare`: entries matched by
name over the sorted union of names. -/
def diffListBoth (labels : Nat → Nat → Option (List Nat)) (li : Nat)
    (sl il : ParList) (ol : Option ParList) : List DiffRec :=
  let field_count := match sl.entries with
    | e :: _ => e.fields.length
    | [] => match il.entries with
      | e :: _ => e.fields.length
      | [] => 0
  ((sortedNames sl.entries il.entries).map (fun nm =>
    match byName sl.entries nm, byName il.entries nm with
    | some (sei, se), none =>
        [{ rtype := .source_only, list_idx := li, entry_name := nm, field_idx := -1,
           field_label := [], source_val := .fieldTally se.fields.length,
           input_val := .dash, original_val := .dash,
           src_li := (li : Int), src_ei := (sei : Int), inp_li := -1, inp_ei := -1 }]
    | none, some (iei, ie) =>
        [{ rtype := .input_only, list_idx := li, entry_name := nm, field_idx := -1,
           field_label := [], source_val := .dash,
           input_val := .fieldTally ie.fields.length, original_val := .dash,
           src_li := -1, src_ei := -1, inp_li := (li : Int), inp_ei := (iei : Int) }]
    | some (sei, se), some (iei, ie) =>
        diffEntryFields labels field_count li nm sei iei se ie
          ((match ol with
            | some o => byName o.entries nm
            | none => none).map (fun (p : Nat × ParEntry) => p.2))
    | none, none => [])).flatten

/-- `_cmp_run_compare` as a pure function of source, input, the optional
baseline and the external label resolver, returning `self.cmp_diffs`.
Lists are matched positionally up to the longer side. -/
def cmp_run_compare (src inp : ParFile) (orig : Option ParFile)
    (labels : Nat → Nat → Option (List Nat)) : List DiffRec :=
  ((List.range (max src.lists.length inp.lists.length)).map (fun li =>
    match src.lists[li]?, inp.lists[li]? with
    | none, some il =>
        il.entries.enum.map (fun p =>
          { rtype := .input_only, list_idx := li, entry_name := p.2.name,
            field_idx := -1, field_label := [], source_val := .dash,
            input_val := .fieldTally p.2.fields.length, original_val := .dash,
            src_li := -1, src_ei := -1, inp_li := (li : Int), inp_ei := (p.1 : Int) })
    | some sl, none =>
        sl.entries.enum.map (fun p =>
          { rtype := .source_only, list_idx := li, entry_name := p.2.name,
            field_idx := -1, field_label := [],
            source_val := .fieldTally p.2.fields.length, input_val := .dash,
            original_val := .dash, src_li := (li : Int), src_ei := (p.1 : Int),
            inp_li := -1, inp_ei := -1 })
    | some sl, some il =>
        diffListBoth labels li sl il
          (match orig with
           | some o => o.lists[li]?
           | none => none)
    | none, none => [])).flatten

/-- `ParList()` as constructed when the merge extends `src.lists`. -/
def emptyParList : ParList := { unknown1 := 0, unknown2 := 0, entries := [] }

/-- A default entry; only a `getD` placeholder behind bounds guards. -/
def emptyParEntry : ParEntry :=
  { name := [], unknown_byte := 0, unknown_u16a := 0, unknown_u16b := 0, fields := [] }

/-- `ParField(0, 0)`: the zero int32 padding field of the merge. -/
def zeroField : ParField := { dtype := 0, value := .vint 0 }

/-- Python `l[i]` for a possibly negative index. -/
def getPyIdx (l : List α) (i : Int) : Option α :=
  if 0 ≤ i then l[i.toNat]?
  else if 0 ≤ (l.length : Int) + i then l[((l.length : Int) + i).toNat]? else none

/-- Python `l[i] = a` for a possibly negative index; `none` is `IndexError`. -/
def setPyIdx (l : List α) (i : Int) (a : α) : Option (List α) :=
  if 0 ≤ i then
    if i < (l.length : Int) then some (l.set i.toNat a) else none
  else
    if 0 ≤ (l.length : Int) + i then some (l.set ((l.length : Int) + i).toNat a) else none

/-- One iteration of the `_cmp_merge` loop over the selected records,
threading the mutated source and the two counters; `none` models an
uncaught `IndexError` (the source checks `ili < len(inp.lists)` in the
`input_only` branch but never bounds-checks `iei`). -/
def cmp_merge_apply (inp : ParFile) (st : ParFile × Nat × Nat) (d : DiffRec) :
    Option (ParFile × Nat × Nat) :=
  let src := st.1
  let ch := st.2.1
  let ad := st.2.2
  match d.rtype with
  | .changed =>
    if 0 ≤ d.src_li ∧ 0 ≤ d.src_ei ∧ d.src_li < (src.lists.length : Int) then
      let slist := src.lists.getD d.src_li.toNat emptyParList
      if d.src_ei < (slist.entries.length : Int) then
        let sentry := slist.entries.getD d.src_ei.toNat emptyParEntry
        if 0 ≤ d.inp_li ∧ 0 ≤ d.inp_ei ∧ d.inp_li < (inp.lists.length : Int) then
          let ilist := inp.lists.getD d.inp_li.toNat emptyParList
          if d.inp_ei < (ilist.entries.length : Int) then
            let ientry := ilist.entries.getD d.inp_ei.toNat emptyParEntry
            if d.field_idx < (ientry.fields.length : Int) then
              let padded := if (sentry.fields.length : Int) ≤ d.field_idx
                then sentry.fields
                  ++ List.replicate (d.field_idx + 1 - sentry.fields.length).toNat zeroField
                else sentry.fields
              match getPyIdx ientry.fields d.field_idx with
              | none => none
              | some inpf =>
                match setPyIdx padded d.field_idx (ParField.mk inpf.dtype inpf.value) with
                | none => none
                | some fields2 =>
                  let sentry2 := { sentry with fields := fields2 }
                  let slist2 := { slist with
                    entries := slist.entries.set d.src_ei.toNat sentry2 }
                  some ({ src with
                    lists := src.lists.set d.src_li.toNat slist2 }, ch + 1, ad)
            else some (src, ch, ad)
          else some (src, ch, ad)
        else some (src, ch, ad)
      else some (src, ch, ad)
    else some (src, ch, ad)
  | .input_only =>
    if 0 ≤ d.inp_li ∧ 0 ≤ d.inp_ei ∧ d.inp_li < (inp.lists.length : Int) then
      match (inp.lists.getD d.inp_li.toNat emptyParList).entries[d.inp_ei.toNat]? with
      | none => none
      | some ientry =>
        let lists2 := if src.lists.length ≤ d.inp_li.toNat
          then src.lists ++ List.replicate (d.inp_li.toNat + 1 - src.lists.length) emptyParList
          else src.lists
        let newEntry : ParEntry :=
          { name := ientry.name, unknown_byte := ientry.unknown_byte,
            unknown_u16a := ientry.unknown_u16a, unknown_u16b := ientry.unknown_u16b,
            fields := ientry.fields.map (fun f => ParField.mk f.dtype f.value) }
        let tlist := lists2.getD d.inp_li.toNat emptyParList
        if tlist.entries.any (fun e => e.name = newEntry.name) then
          some ({ src with lists := lists2 }, ch, ad)
        else
          let tlist2 := { tlist with entries := tlist.entries ++ [newEntry] }
          some ({ src with lists := lists2.set d.inp_li.toNat tlist2 }, ch, ad + 1)
    else some (src, ch, ad)
  | .source_only => some (src, ch, ad)

/-- `_cmp_merge` on a caller-chosen selection of diff records: fold the
per-record application over the selection, starting from counts `(0, 0)`. -/
def cmp_merge (src inp : ParFile) (sel : List DiffRec) : Option (ParFile × Nat × Nat) :=
  sel.foldlM (cmp_merge_apply inp) (src, 0, 0)

/-- Erase the baseline display column of a record. -/
def stripOriginal (d : DiffRec) : DiffRec := { d with original_val := .dash }

/-- The entry update a selected `changed` record performs: pad the field
list with zero int32 fields up to index `fi`, then overwrite index `fi`. -/
def mergeSetFieldEntry (se : ParEntry) (fi : Nat) (nf : ParField) : ParEntry :=
  { se with
    fields := (se.fields ++ List.replicate (fi + 1 - se.fields.length) zeroField).set fi nf }

/-- The containing list after updating the entry at `sei`. -/
def mergeSetFieldList (sl : ParList) (sei fi : Nat) (se : ParEntry) (nf : ParField) : ParList :=
  { sl with entries := sl.entries.set sei (mergeSetFieldEntry se fi nf) }

/-- The state update a selected `changed` record performs: inside `src`,
pad the fields of the entry at `(sli, sei)` with zero int32 fields up to
index `fi` and overwrite index `fi` with `nf`; `sl` and `se` name the list
and entry sitting at those coordinates. -/
def mergeSetField (src : ParFile) (sli sei fi : Nat) (sl : ParList) (se : ParEntry)
    (nf : ParField) : ParFile :=
  { src with lists := src.lists.set sli (mergeSetFieldList sl sei fi se nf) }

/-- Specification-side description of duplicate-name resolution: the
enumerated entry of the highest index bearing a name.  Compared against the
dictionary `byName` that the code actually builds. -/
def lastNameIdx (es : List ParEntry) (nm : List Nat) : Option (Nat × ParEntry) :=
  (es.enum.filter (fun p => p.2.name = nm)).getLast?

/-- The minimal file of the spec's concrete scenario: one list with tags
`(0,0)`, one entry `"Test"` with one int32 field `42`. -/
def parDemoFile : ParFile :=
  { version := 1536
    lists := [{ unknown1 := 0, unknown2 := 0,
                entries := [{ name := [84, 101, 115, 116], unknown_byte := 0,
                              unknown_u16a := 0, unknown_u16b := 0,
                              fields := [⟨0, .vint 42⟩] }] }]
    trailing_data := [] }

/-- The encoding of `parDemoFile`. -/
def parDemoBuf : List Byte := write_par parDemoFile

/-- A buffer whose single array field is present-but-empty: presence
marker `1` with count `0`.  `read_par` accepts it. -/
def c1CexBuf : List Byte :=
  PAR_MAGIC ++ writeU32 1536 ++ writeU32 1 ++ writeU32 0
    ++ writeU32 0 ++ writeU32 0 ++ writeU32 1
    ++ write_delphi_string [65] ++ writeI8 0 ++ writeU16 1 ++ writeU16 0 ++ writeU16 0
    ++ writeU8 4 ++ writeU64 1 ++ writeU32 0

/-- What `read_par` makes of `c1CexBuf`: the empty int32 array. -/
def c1CexFile : ParFile :=
  { version := 1536
    lists := [{ unknown1 := 0, unknown2 := 0,
                entries := [{ name := [65], unknown_byte := 0,
                              unknown_u16a := 0, unknown_u16b := 0,
                              fields := [⟨4, .vintArr []⟩] }] }]
    trailing_data := [] }

/-- A present-but-empty array field on its own: marker `1`, count `0`. -/
def c2CexBuf : List Byte := writeU64 1 ++ writeU32 0

/-- A canonical one-element int32 array encoding, for witnesses. -/
def c2WitBuf : List Byte := writeU64 1 ++ writeU32 2 ++ writeI32 5 ++ writeI32 (-7)

/-- The trivial label resolver: no label for any field. -/
def labels0 : Nat → Nat → Option (List Nat) := fun _ _ => none

/-- A field value is float-safe when, if it is a scalar float, its bit
pattern is finite (not NaN, not an infinity). -/
def finiteFloats (f : ParField) : Bool :=
  match f.value with
  | .vfloat b => !(isNaN32 b || isInf32 b)
  | _ => true

/-- Every scalar float field in the file is finite. -/
def wfFloatsFile (par : ParFile) : Bool :=
  par.lists.all (fun pl => pl.entries.all (fun e => e.fields.all finiteFloats))

/-- A file with one quiet-NaN float32 field (bit pattern 0x7FC00000). -/
def c5NanFile : ParFile :=
  { version := 1536
    lists := [{ unknown1 := 0, unknown2 := 0,
                entries := [{ name := [65], unknown_byte := 0,
                              unknown_u16a := 0, unknown_u16b := 0,
                              fields := [⟨1, .vfloat 2143289344⟩] }] }]
    trailing_data := [] }

/-- An entry with one int32 field, for compact test models. -/
def entV (nm : List Nat) (v : Int) : ParEntry :=
  { name := nm, unknown_byte := 0, unknown_u16a := 0, unknown_u16b := 0,
    fields := [⟨0, .vint v⟩] }

/-- A list holding two entries with the same name `[78]`. -/
def c10SrcList : ParList :=
  { unknown1 := 0, unknown2 := 0, entries := [entV [78] 1, entV [78] 2] }

/-- A list with one entry of that duplicated name. -/
def c10InpList : ParList :=
  { unknown1 := 0, unknown2 := 0, entries := [entV [78] 3] }

/-- A source model whose single list holds two entries with the same name. -/
def c10Src : ParFile :=
  { version := 1536, lists := [c10SrcList], trailing_data := [] }

/-- An input model with one entry of that duplicated name. -/
def c10Inp : ParFile :=
  { version := 1536, lists := [c10InpList], trailing_data := [] }

/-- The single record `diff(c10Src, c10Inp)` produces: the comparison uses
the source entry at index 1 — the later duplicate. -/
def c10Rec : DiffRec :=
  { rtype := .changed
    list_idx := 0
    entry_name := [78]
    field_idx := 0
    field_label := []
    source_val := .fieldVal (some ⟨0, .vint 2⟩)
    input_val := .fieldVal (some ⟨0, .vint 3⟩)
    original_val := .dash
    src_li := 0
    src_ei := 1
    inp_li := 0
    inp_ei := 0 }

/-- A source entry with no fields, forcing the merge to pad. -/
def c7SrcEntry : ParEntry :=
  { name := [79], unknown_byte := 0, unknown_u16a := 0, unknown_u16b := 0, fields := [] }

/-- The source list holding `c7SrcEntry`. -/
def c7SrcList : ParList := { unknown1 := 0, unknown2 := 0, entries := [c7SrcEntry] }

/-- Source model for the padding scenario. -/
def c7Src : ParFile := { version := 1536, lists := [c7SrcList], trailing_data := [] }

/-- The input entry with two fields (int32 5, uint32 7). -/
def c7InpEntry : ParEntry :=
  { name := [79], unknown_byte := 0, unknown_u16a := 0, unknown_u16b := 0,
    fields := [⟨0, .vint 5⟩, ⟨2, .vuint 7⟩] }

/-- The input list holding `c7InpEntry`. -/
def c7InpList : ParList := { unknown1 := 0, unknown2 := 0, entries := [c7InpEntry] }

/-- Input model for the padding scenario. -/
def c7Inp : ParFile := { version := 1536, lists := [c7InpList], trailing_data := [] }

/-- A selected Changed record targeting field index 1 of `c7SrcEntry`. -/
def c7Rec : DiffRec :=
  { rtype := .changed
    list_idx := 0
    entry_name := [79]
    field_idx := 1
    field_label := []
    source_val := .fieldVal none
    input_val := .fieldVal (some ⟨2, .vuint 7⟩)
    original_val := .dash
    src_li := 0
    src_ei := 0
    inp_li := 0
    inp_ei := 0 }

/-- The field stored at coordinates `(li, ei, fi)` of a model, if any. -/
def getCell (s : ParFile) (li ei fi : Nat) : Option ParField :=
  match s.lists[li]? with
  | none => none
  | some sl =>
    match sl.entries[ei]? with
    | none => none
    | some se => se.fields[fi]?

/-- List `li` of the model exists and contains an entry named `nm`. -/
def hasName (s : ParFile) (li : Nat) (nm : List Nat) : Prop :=
  ∃ tl, s.lists[li]? = some tl ∧ ∃ e ∈ tl.entries, e.name = nm

/-- The entry copy the `input_only` merge branch constructs. -/
def deepCopyEntry (ie : ParEntry) : ParEntry :=
  { name := ie.name, unknown_byte := ie.unknown_byte, unknown_u16a := ie.unknown_u16a,
    unknown_u16b := ie.unknown_u16b,
    fields := ie.fields.map (fun f => ParField.mk f.dtype f.value) }

/-- How one or more merge steps may transform a model: lists and entries
only grow, existing entries keep their names, and a stored field is
preserved wherever the predicate `P` marks its cell as untouched. -/
def MonoPres (s t : ParFile) (P : Nat → Nat → Nat → Prop) : Prop :=
  s.lists.length ≤ t.lists.length
  ∧ ∀ li sl, s.lists[li]? = some sl → ∃ sl2, t.lists[li]? = some sl2
      ∧ sl.entries.length ≤ sl2.entries.length
      ∧ ∀ ei e, sl.entries[ei]? = some e → ∃ e2, sl2.entries[ei]? = some e2
          ∧ e2.name = e.name
          ∧ ∀ fi f, e.fields[fi]? = some f → P li ei fi → e2.fields[fi]? = some f

/-- A `changed` record whose stored coordinates resolve to an entry of `s`
and an entry of `inp` (all four indices non-negative and in range). -/
def validChanged (s inp : ParFile) (d : DiffRec) : Prop :=
  d.rtype = DiffType.changed →
  ∃ (sli sei ili iei fi : Nat), d.src_li = (sli : Int) ∧ d.src_ei = (sei : Int)
    ∧ d.inp_li = (ili : Int) ∧ d.inp_ei = (iei : Int) ∧ d.field_idx = (fi : Int)
    ∧ (∃ sl, s.lists[sli]? = some sl ∧ ∃ se, sl.entries[sei]? = some se)
    ∧ (∃ il, inp.lists[ili]? = some il ∧ ∃ ie, il.entries[iei]? = some ie)

/-- An `input_only` record whose stored input coordinates resolve. -/
def validInputOnly (inp : ParFile) (d : DiffRec) : Prop :=
  d.rtype = DiffType.input_only →
  ∃ (ili iei : Nat), d.inp_li = (ili : Int) ∧ d.inp_ei = (iei : Int)
    ∧ ∃ il, inp.lists[ili]? = some il ∧ ∃ ie, il.entries[iei]? = some ie

/-- Two selected records never target the same source field cell. -/
def keyDiff (d1 d2 : DiffRec) : Prop :=
  d1.rtype = DiffType.changed → d2.rtype = DiffType.changed →
  ¬(d1.src_li = d2.src_li ∧ d1.src_ei = d2.src_ei ∧ d1.field_idx = d2.field_idx)

/-- After a merge run, the cell a `changed` record targets holds the copy
of the input field (whenever the record was actually applicable). -/
def PostChanged (inp m : ParFile) (d : DiffRec) : Prop :=
  d.rtype = DiffType.changed →
  ∀ (sli sei ili iei fi : Nat), d.src_li = (sli : Int) → d.src_ei = (sei : Int) →
    d.inp_li = (ili : Int) → d.inp_ei = (iei : Int) → d.field_idx = (fi : Int) →
    ∀ il ie inpf, inp.lists[ili]? = some il → il.entries[iei]? = some ie →
      ie.fields[fi]? = some inpf →
      getCell m sli sei fi = some ⟨inpf.dtype, inpf.value⟩

/-- After a merge run, the entry an `input_only` record would append is
present by name in the target list. -/
def PostInputOnly (inp m : ParFile) (d : DiffRec) : Prop :=
  d.rtype = DiffType.input_only →
  ∀ (ili iei : Nat), d.inp_li = (ili : Int) → d.inp_ei = (iei : Int) →
    ∀ il ie, inp.lists[ili]? = some il → il.entries[iei]? = some ie →
      hasName m ili ie.name

/-- The state update of the `input_only` merge branch: extend `src.lists`
up to index `ili` if needed, then append a copy of `ie` to list `ili`
unless an entry of the same name is already there; the second component is
the number of entries actually added (0 or 1). -/
def mergeAppendEntry (src : ParFile) (ili : Nat) (ie : ParEntry) : ParFile × Nat :=
  let lists2 := if src.lists.length ≤ ili
    then src.lists ++ List.replicate (ili + 1 - src.lists.length) emptyParList
    else src.lists
  let tlist := lists2.getD ili emptyParList
  if tlist.entries.any (fun e => e.name = ie.name) then
    ({ src with lists := lists2 }, 0)
  else
    let tlist2 := { tlist with entries := tlist.entries ++ [deepCopyEntry ie] }
    ({ src with lists := lists2.set ili tlist2 }, 1)

/-- Does a `changed` record pass the static input-side applicability test
(its field index lies below the input entry's field count)?  Under valid
coordinates this is the only reason the merge loop skips it. -/
def appliedChanged (inp : ParFile) (d : DiffRec) : Bool :=
  decide (d.rtype = DiffType.changed) &&
  (match (if 0 ≤ d.inp_li then inp.lists[d.inp_li.toNat]? else none) with
   | none => false
   | some il =>
     match (if 0 ≤ d.inp_ei then il.entries[d.inp_ei.toNat]? else none) with
     | none => false
     | some ie => decide (d.field_idx < (ie.fields.length : Int)))

/-- How many selected records update a field (and are counted) per run. -/
def nChanged (inp : ParFile) (sel : List DiffRec) : Nat :=
  (sel.filter (appliedChanged inp)).length

/-- Body of the toy self-delimiting stream codec: each payload byte is
escaped behind a `0`, and a lone `1` terminates the stream. -/
def toyEnc : List Byte → List Byte
  | [] => [1]
  | b :: bs => 0 :: b :: toyEnc bs

/-- A toy stand-in for `zlib.compress`: the `0x78` signature, two filler
header bytes, then the escaped payload.  It satisfies the three stream
laws the envelope theorem assumes of zlib. -/
def toyCompress (x : List Byte) : List Byte := 120 :: 156 :: 255 :: toyEnc x

/-- Decoder for `toyEnc`, returning the payload and the unused tail. -/
def toyDecode : List Byte → Option (List Byte × List Byte)
  | [] => none
  | c :: rest =>
    if c = (1 : Byte) then some ([], rest)
    else if c = (0 : Byte) then
      match rest with
      | [] => none
      | b :: rest2 => (toyDecode rest2).map (fun p => (b :: p.1, p.2))
    else none

/-- A toy stand-in for `zlib.decompressobj().decompress`: strips the header,
decodes one stream, and reports the remaining input unconsumed. -/
def toyDecompress (l : List Byte) : Option (List Byte × List Byte) :=
  if l.take 3 = [120, 156, 255] then toyDecode (l.drop 3) else none

/-- C6/C9 scenario: an initially empty source model. -/
def c6Src : ParFile :=
  { version := 8, lists := [], trailing_data := [] }

def c6InpList : ParList :=
  { unknown1 := 0, unknown2 := 0, entries := [entV [78] 1, entV [77] 99] }

/-- Input model with two entries in one list. -/
def c6Inp : ParFile :=
  { version := 8, lists := [c6InpList], trailing_data := [] }

/-- A `changed` record whose source coordinates do not exist yet in `c6Src`
but are created by the append of `c6RecB`. -/
def c6RecA : DiffRec :=
  { rtype := .changed
    list_idx := 0
    entry_name := [78]
    field_idx := 0
    field_label := []
    source_val := .dash
    input_val := .fieldVal (some ⟨0, .vint 99⟩)
    original_val := .dash
    src_li := 0
    src_ei := 0
    inp_li := 0
    inp_ei := 1 }

/-- An `input_only` record appending input entry 0 of list 0. -/
def c6RecB : DiffRec :=
  { rtype := .input_only
    list_idx := 0
    entry_name := [78]
    field_idx := -1
    field_label := []
    source_val := .dash
    input_val := .fieldTally 1
    original_val := .dash
    src_li := -1
    src_ei := -1
    inp_li := 0
    inp_ei := 0 }

/-- A `source_only` record, as `_cmp_run_compare` emits them. -/
def c9Rec : DiffRec :=
  { rtype := .source_only
    list_idx := 0
    entry_name := [83]
    field_idx := -1
    field_label := []
    source_val := .fieldTally 1
    input_val := .dash
    original_val := .dash
    src_li := 0
    src_ei := 0
    inp_li := -1
    inp_ei := -1 }

/-- Witness source for the amended idempotence statement: list 0 entry 0
exists and matches the coordinates of `c6WitRec`. -/
def c6WitSrc : ParFile :=
  { version := 8,
    lists := [{ unknown1 := 0, unknown2 := 0, entries := [entV [78] 5] }],
    trailing_data := [] }

/-- The model after one merge of `[c6WitRec]` into `c6WitSrc`. -/
def c6WitM1 : ParFile :=
  { version := 8,
    lists := [{ unknown1 := 0, unknown2 := 0, entries := [entV [78] 1] }],
    trailing_data := [] }

/-- A `changed` record with resolvable coordinates on both sides. -/
def c6WitRec : DiffRec :=
  { rtype := .changed
    list_idx := 0
    entry_name := [78]
    field_idx := 0
    field_label := []
    source_val := .fieldVal (some ⟨0, .vint 5⟩)
    input_val := .fieldVal (some ⟨0, .vint 1⟩)
    original_val := .dash
    src_li := 0
    src_ei := 0
    inp_li := 0
    inp_ei := 0 }

/-! ## Byte-level codec lemmas

For every primitive the two directions of the codec discipline: writing a
value and reading it back yields the value and the untouched tail
(`read*_write*`), and an accepted read pins down the consumed bytes as the
canonical encoding of the value it returned (`read*_canon`). -/

theorem byte_val (n : Nat) : (byte n).val = n % 256 := rfl

theorem readU8_writeU8 (v : Nat) (h : v < 256) (r : List Byte) :
    readU8 (writeU8 v ++ r) = some (v, r) := by
  simp only [writeU8, List.cons_append, List.nil_append, readU8, byte_val,
    Nat.mod_eq_of_lt h]

theorem readU16_writeU16 (v : Nat) (h : v < 65536) (r : List Byte) :
    readU16 (writeU16 v ++ r) = some (v, r) := by
  simp only [writeU16, List.cons_append, List.nil_append, readU16, byte_val]
  congr 2
  omega

theorem readU32_writeU32 (v : Nat) (h : v < 4294967296) (r : List Byte) :
    readU32 (writeU32 v ++ r) = some (v, r) := by
  simp only [writeU32, List.cons_append, List.nil_append, readU32, byte_val]
  congr 2
  omega

theorem readU64_writeU64 (v : Nat) (h : v < 18446744073709551616) (r : List Byte) :
    readU64 (writeU64 v ++ r) = some (v, r) := by
  simp only [writeU64, List.cons_append, List.nil_append, readU64, byte_val]
  congr 2
  omega

theorem readI8_writeI8 (v : Int) (h1 : -128 ≤ v) (h2 : v < 128) (r : List Byte) :
    readI8 (writeI8 v ++ r) = some (v, r) := by
  simp only [writeI8, List.cons_append, List.nil_append, readI8, byte_val,
    Option.some.injEq, Prod.mk.injEq]
  refine ⟨?_, trivial⟩
  split <;> omega

theorem readI32_writeI32 (v : Int) (h1 : -2147483648 ≤ v) (h2 : v < 2147483648)
    (r : List Byte) : readI32 (writeI32 v ++ r) = some (v, r) := by
  unfold readI32 writeI32
  rw [readU32_writeU32 _ (by omega)]
  simp only [Option.map_some', Option.some.injEq, Prod.mk.injEq]
  refine ⟨?_, trivial⟩
  unfold toI32
  split <;> omega

theorem readF32_writeF32 (b : Nat) (h : b < 4294967296) (r : List Byte) :
    readF32 (writeF32 b ++ r) = some (b, r) := by
  unfold readF32 writeF32
  exact readU32_writeU32 b h r

theorem decode_encode_ascii {c : Nat} (h : c < 128) :
    decodeAsciiByte (encodeAsciiChar c) = c := by
  unfold decodeAsciiByte encodeAsciiChar
  rw [if_pos h, byte_val, Nat.mod_eq_of_lt (show c < 256 by omega), if_pos h]

theorem read_write_delphi_string (s : List Nat) (hlen : s.length ≤ 1000000)
    (hascii : ∀ c ∈ s, c < 128) (r : List Byte) :
    read_delphi_string (write_delphi_string s ++ r) = some (s, r) := by
  unfold write_delphi_string read_delphi_string
  rw [List.append_assoc, readU32_writeU32 _ (by omega)]
  simp only [Option.bind_eq_bind, Option.some_bind]
  rw [if_neg (by omega)]
  have hml : (s.map encodeAsciiChar).length = s.length := List.length_map _ _
  rw [if_neg (by simp only [List.length_append, hml]; omega)]
  rw [List.take_left' hml, List.drop_left' hml]
  simp only [List.map_map, Option.pure_def, Option.some.injEq, Prod.mk.injEq]
  refine ⟨?_, trivial⟩
  calc s.map (decodeAsciiByte ∘ encodeAsciiChar)
      = s.map id := List.map_congr_left (fun c hc => decode_encode_ascii (hascii c hc))
    _ = s := List.map_id s

theorem readElems_flatten {α : Type} (re : List Byte → Option (α × List Byte))
    (we : α → List Byte) (vs : List α) (r : List Byte)
    (h : ∀ v ∈ vs, ∀ r2, re (we v ++ r2) = some (v, r2)) :
    readElems re vs.length ((vs.map we).flatten ++ r) = some (vs, r) := by
  induction vs with
  | nil => simp [readElems]
  | cons v vs ih =>
    simp only [List.map_cons, List.flatten_cons, List.length_cons, List.append_assoc]
    rw [readElems, h v (by simp)]
    simp only [Option.bind_eq_bind, Option.some_bind]
    rw [ih (fun w hw r2 => h w (by simp [hw]) r2)]
    rfl

theorem read_write_extra_array {α : Type} (re : List Byte → Option (α × List Byte))
    (we : α → List Byte) (vs : List α) (r : List Byte)
    (hlen : vs.length < 4294967296)
    (h : ∀ v ∈ vs, ∀ r2, re (we v ++ r2) = some (v, r2)) :
    read_extra_array re (write_extra_array we vs ++ r) = some (vs, r) := by
  unfold write_extra_array read_extra_array
  cases vs with
  | nil =>
    simp only [List.isEmpty_nil, if_true, readU64_writeU64 0 (by norm_num)]
    simp [Option.bind_eq_bind, Option.some_bind]
  | cons v vs =>
    simp only [List.isEmpty_cons, if_false, Bool.false_eq_true, List.append_assoc]
    rw [readU64_writeU64 1 (by norm_num)]
    simp only [Option.bind_eq_bind, Option.some_bind, if_neg (by omega : ¬ (1 : Nat) = 0)]
    rw [readU32_writeU32 _ hlen]
    simp only [Option.some_bind]
    exact readElems_flatten re we (v :: vs) r h

theorem readU32_canon {l : List Byte} {v : Nat} {r : List Byte}
    (h : readU32 l = some (v, r)) : l = writeU32 v ++ r ∧ v < 4294967296 := by
  unfold readU32 at h
  split at h
  case _ b0 b1 b2 b3 rest =>
    simp only [Option.some.injEq, Prod.mk.injEq] at h
    obtain ⟨hv, hr⟩ := h
    subst hr
    subst hv
    have h0 := b0.isLt
    have h1 := b1.isLt
    have h2 := b2.isLt
    have h3 := b3.isLt
    refine ⟨?_, by omega⟩
    simp only [writeU32, List.cons_append, List.nil_append, List.cons.injEq]
    refine ⟨?_, ?_, ?_, ?_, trivial⟩ <;> (apply Fin.ext; rw [byte_val]; omega)
  case _ => exact absurd h (by simp)

theorem readU64_canon {l : List Byte} {v : Nat} {r : List Byte}
    (h : readU64 l = some (v, r)) : l = writeU64 v ++ r ∧ v < 18446744073709551616 := by
  unfold readU64 at h
  split at h
  case _ b0 b1 b2 b3 b4 b5 b6 b7 rest =>
    simp only [Option.some.injEq, Prod.mk.injEq] at h
    obtain ⟨hv, hr⟩ := h
    subst hr
    subst hv
    have h0 := b0.isLt
    have h1 := b1.isLt
    have h2 := b2.isLt
    have h3 := b3.isLt
    have h4 := b4.isLt
    have h5 := b5.isLt
    have h6 := b6.isLt
    have h7 := b7.isLt
    refine ⟨?_, by omega⟩
    simp only [writeU64, List.cons_append, List.nil_append, List.cons.injEq]
    refine ⟨?_, ?_, ?_, ?_, ?_, ?_, ?_, ?_, trivial⟩ <;> (apply Fin.ext; rw [byte_val]; omega)
  case _ => exact absurd h (by simp)

theorem readI32_canon {l : List Byte} {v : Int} {r : List Byte}
    (h : readI32 l = some (v, r)) :
    l = writeI32 v ++ r ∧ -2147483648 ≤ v ∧ v < 2147483648 := by
  unfold readI32 at h
  rw [Option.map_eq_some'] at h
  obtain ⟨⟨u, r2⟩, hu, hv⟩ := h
  simp only [Prod.mk.injEq] at hv
  obtain ⟨hv1, hv2⟩ := hv
  subst hv2
  obtain ⟨hl, hub⟩ := readU32_canon hu
  subst hl
  have huv : (v % 4294967296).toNat = u ∧ -2147483648 ≤ v ∧ v < 2147483648 := by
    subst hv1
    unfold toI32
    split <;> (refine ⟨by omega, by omega, by omega⟩)
  refine ⟨?_, huv.2.1, huv.2.2⟩
  unfold writeI32
  rw [huv.1]

theorem wfField_dtype_lt {f : ParField} (h : wfField f = true) : f.dtype < 8 := by
  unfold wfField at h
  split at h <;> simp_all

theorem readFieldValue_write (f : ParField) (h : wfField f = true) (r : List Byte) :
    readFieldValue f.dtype (writeFieldValue f ++ r) = some (f.value, r) := by
  unfold wfField at h
  split at h
  case _ v hd hv =>
    simp only [decide_eq_true_eq] at h
    unfold readFieldValue writeFieldValue
    rw [hd, hv]
    simp only [if_pos rfl]
    rw [readI32_writeI32 v h.1 h.2]
    rfl
  case _ b hd hv =>
    simp only [decide_eq_true_eq] at h
    unfold readFieldValue writeFieldValue
    rw [hd, hv]
    norm_num
    rw [readF32_writeF32 b h]
  case _ v hd hv =>
    simp only [decide_eq_true_eq] at h
    unfold readFieldValue writeFieldValue
    rw [hd, hv]
    norm_num
    rw [readU32_writeU32 v h]
  case _ s hd hv =>
    simp only [Bool.and_eq_true, decide_eq_true_eq, List.all_eq_true] at h
    unfold readFieldValue writeFieldValue
    rw [hd, hv]
    norm_num
    rw [read_write_delphi_string s h.1 (fun c hc => by simpa using h.2 c hc)]
  case _ vs hd hv =>
    simp only [Bool.and_eq_true, decide_eq_true_eq, List.all_eq_true] at h
    unfold readFieldValue writeFieldValue
    rw [hd, hv]
    norm_num
    rw [read_write_extra_array readI32 writeI32 vs r h.1
      (fun v hv2 r2 => by
        have h2 := h.2 v hv2
        simp only [decide_eq_true_eq] at h2
        exact readI32_writeI32 v h2.1 h2.2 r2)]
  case _ vs hd hv =>
    simp only [Bool.and_eq_true, decide_eq_true_eq, List.all_eq_true] at h
    unfold readFieldValue writeFieldValue
    rw [hd, hv]
    norm_num
    rw [read_write_extra_array readF32 writeF32 vs r h.1
      (fun b hb r2 => readF32_writeF32 b (by simpa using h.2 b hb) r2)]
  case _ vs hd hv =>
    simp only [Bool.and_eq_true, decide_eq_true_eq, List.all_eq_true] at h
    unfold readFieldValue writeFieldValue
    rw [hd, hv]
    norm_num
    rw [read_write_extra_array readU32 writeU32 vs r h.1
      (fun v hv2 r2 => readU32_writeU32 v (by simpa using h.2 v hv2) r2)]
  case _ vs hd hv =>
    simp only [Bool.and_eq_true, decide_eq_true_eq, List.all_eq_true] at h
    unfold readFieldValue writeFieldValue
    rw [hd, hv]
    norm_num
    rw [read_write_extra_array read_delphi_string write_delphi_string vs r h.1
      (fun t ht r2 => by
        have h2 := h.2 t ht
        simp only [Bool.and_eq_true, decide_eq_true_eq, List.all_eq_true] at h2
        exact read_write_delphi_string t h2.1
          (fun c hc => by simpa using h2.2 c hc) r2)]
  case _ =>
    exact absurd h (by simp)

theorem readFields_write (fs : List ParField) (h : ∀ f ∈ fs, wfField f = true)
    (r : List Byte) :
    readFields (fs.map (fun f => f.dtype)) ((fs.map writeFieldValue).flatten ++ r)
      = some (fs, r) := by
  induction fs with
  | nil => simp [readFields]
  | cons f fs ih =>
    simp only [List.map_cons, List.flatten_cons, List.append_assoc]
    rw [readFields, readFieldValue_write f (h f (by simp))]
    simp only [Option.bind_eq_bind, Option.some_bind]
    rw [ih (fun g hg => h g (by simp [hg]))]
    rfl

theorem readEntry_write (e : ParEntry) (h : wfEntry e = true) (r : List Byte) :
    readEntry (writeEntry e ++ r) = some (e, r) := by
  unfold wfEntry at h
  simp only [Bool.and_eq_true, decide_eq_true_eq, List.all_eq_true] at h
  obtain ⟨⟨⟨⟨⟨⟨hnl, hna⟩, hub⟩, hfl⟩, ha⟩, hb⟩, hf⟩ := h
  unfold writeEntry readEntry
  simp only [List.append_assoc]
  rw [read_write_delphi_string e.name hnl (fun c hc => by simpa using hna c hc)]
  simp only [Option.bind_eq_bind, Option.some_bind]
  rw [readI8_writeI8 e.unknown_byte hub.1 hub.2]
  simp only [Option.some_bind]
  rw [readU16_writeU16 e.fields.length hfl]
  simp only [Option.some_bind]
  rw [readU16_writeU16 e.unknown_u16a ha]
  simp only [Option.some_bind]
  rw [readU16_writeU16 e.unknown_u16b hb]
  simp only [Option.some_bind]
  have htl : (e.fields.map (fun f => writeU8 f.dtype)).flatten
      = ((e.fields.map (fun f => f.dtype)).map writeU8).flatten := by
    rw [List.map_map]
    rfl
  rw [htl]
  have hcnt : e.fields.length = (e.fields.map (fun f => f.dtype)).length :=
    (List.length_map _ _).symm
  rw [hcnt, readElems_flatten readU8 writeU8 (e.fields.map (fun f => f.dtype)) _
    (fun d hd r2 => by
      obtain ⟨g, hg, hgd⟩ := List.mem_map.mp hd
      subst hgd
      exact readU8_writeU8 g.dtype (by have := wfField_dtype_lt (hf g hg); omega) r2)]
  simp only [Option.some_bind]
  rw [readFields_write e.fields hf r]
  rfl

theorem readList_write (pl : ParList) (h : wfList pl = true) (r : List Byte) :
    readList (writeList pl ++ r) = some (pl, r) := by
  unfold wfList at h
  simp only [Bool.and_eq_true, decide_eq_true_eq, List.all_eq_true] at h
  obtain ⟨⟨⟨h1, h2⟩, hel⟩, he⟩ := h
  unfold writeList readList
  simp only [List.append_assoc]
  rw [readU32_writeU32 pl.unknown1 h1]
  simp only [Option.bind_eq_bind, Option.some_bind]
  rw [readU32_writeU32 pl.unknown2 h2]
  simp only [Option.some_bind]
  rw [readU32_writeU32 pl.entries.length hel]
  simp only [Option.some_bind]
  have hln : pl.entries.length = pl.entries.length := rfl
  rw [show (pl.entries.map writeEntry).flatten ++ r
      = (pl.entries.map writeEntry).flatten ++ r from rfl]
  rw [readElems_flatten readEntry writeEntry pl.entries r
    (fun en hen r2 => readEntry_write en (he en hen) r2)]
  rfl

/-- Encode-then-decode identity on well-formed models: the backbone of the
round-trip analysis. -/
theorem read_par_write_par (par : ParFile) (h : wfParFile par = true) :
    read_par (write_par par) = some par := by
  unfold wfParFile at h
  simp only [Bool.and_eq_true, decide_eq_true_eq, List.all_eq_true] at h
  obtain ⟨⟨hv, hl⟩, hls⟩ := h
  unfold write_par read_par
  rw [show (4 : Nat) = PAR_MAGIC.length from rfl, List.append_assoc, List.append_assoc,
    List.append_assoc, List.append_assoc, List.take_left, List.drop_left, if_pos rfl]
  rw [readU32_writeU32 par.version hv]
  simp only [Option.bind_eq_bind, Option.some_bind]
  rw [readU32_writeU32 par.lists.length hl]
  simp only [Option.some_bind]
  rw [readU32_writeU32 0 (by norm_num)]
  simp only [Option.some_bind]
  rw [readElems_flatten readList writeList par.lists par.trailing_data
    (fun pl hpl r2 => readList_write pl (hls pl hpl) r2)]
  rfl

theorem readElems_canon {α : Type} {we : α → List Byte} {P : α → Prop}
    (re : List Byte → Option (α × List Byte))
    (hcan : ∀ {l v r}, re l = some (v, r) → l = we v ++ r ∧ P v) :
    ∀ {n : Nat} {l : List Byte} {vs : List α} {r : List Byte},
      readElems re n l = some (vs, r) →
      l = (vs.map we).flatten ++ r ∧ vs.length = n ∧ ∀ v ∈ vs, P v := by
  intro n
  induction n with
  | zero =>
    intro l vs r h
    unfold readElems at h
    simp only [Option.some.injEq, Prod.mk.injEq] at h
    obtain ⟨h1, h2⟩ := h
    subst h1
    subst h2
    simp
  | succ n ih =>
    intro l vs r h
    unfold readElems at h
    simp only [Option.bind_eq_bind] at h
    obtain ⟨⟨v, r1⟩, hre, h⟩ := Option.bind_eq_some.mp h
    obtain ⟨⟨vs2, r2⟩, hrec, h⟩ := Option.bind_eq_some.mp h
    simp only [Option.pure_def, Option.some.injEq, Prod.mk.injEq] at h
    obtain ⟨h1, h2⟩ := h
    subst h1
    subst h2
    obtain ⟨hl, hp⟩ := hcan hre
    obtain ⟨hl2, hn, hps⟩ := ih hrec
    subst hl
    subst hl2
    refine ⟨by simp [List.append_assoc], by simp [hn], ?_⟩
    intro w hw
    rcases List.mem_cons.mp hw with h | h
    · exact h ▸ hp
    · exact hps w h

theorem read_extra_array_inv {α : Type} {we : α → List Byte} {P : α → Prop}
    (re : List Byte → Option (α × List Byte))
    (hcan : ∀ {l v r}, re l = some (v, r) → l = we v ++ r ∧ P v)
    {l : List Byte} {vs : List α} {r : List Byte}
    (h : read_extra_array re l = some (vs, r)) :
    vs.length < 4294967296 ∧ (∀ v ∈ vs, P v) ∧
    (l.take 8 = writeU64 0 ∨ (l.take 8 = writeU64 1 ∧ vs ≠ []) →
      write_extra_array we vs ++ r = l) := by
  unfold read_extra_array at h
  simp only [Option.bind_eq_bind] at h
  obtain ⟨⟨chk, r1⟩, hu, hk⟩ := Option.bind_eq_some.mp h
  dsimp only at hk
  obtain ⟨hl, hcb⟩ := readU64_canon hu
  subst hl
  have htake : (writeU64 chk ++ r1).take 8 = writeU64 chk := List.take_left' rfl
  by_cases hz : chk = 0
  · subst hz
    simp only [if_pos rfl, if_true, Option.pure_def, Option.some.injEq,
      Prod.mk.injEq] at hk
    obtain ⟨h1, h2⟩ := hk
    subst h1
    subst h2
    refine ⟨by norm_num, by simp, ?_⟩
    intro _
    simp [write_extra_array]
  · rw [if_neg hz] at hk
    obtain ⟨⟨len, r2⟩, hu32, hk2⟩ := Option.bind_eq_some.mp hk
    dsimp only at hk2
    obtain ⟨hr1, hlb⟩ := readU32_canon hu32
    subst hr1
    obtain ⟨hr2, hlen, hps⟩ := readElems_canon re hcan hk2
    subst hr2
    refine ⟨by omega, hps, ?_⟩
    rintro (habs | ⟨hone, hne⟩)
    · rw [htake] at habs
      have h1 := readU64_writeU64 chk hcb []
      rw [habs, readU64_writeU64 0 (by norm_num) []] at h1
      simp only [Option.some.injEq, Prod.mk.injEq] at h1
      exact absurd h1.1.symm hz
    · rw [htake] at hone
      have h1 := readU64_writeU64 chk hcb []
      rw [hone, readU64_writeU64 1 (by norm_num) []] at h1
      simp only [Option.some.injEq, Prod.mk.injEq] at h1
      have hchk1 : chk = 1 := h1.1.symm
      subst hchk1
      unfold write_extra_array
      rw [if_neg (by simpa using hne)]
      rw [hlen]
      simp [List.append_assoc]

/-- C1 — counterexample.  The claim says decode-then-encode returns the
identical buffer for every accepted input.  `c1CexBuf` keeps the reserved
word `0` and is accepted by `read_par`, but its present-but-empty array
(presence marker 1, count 0) re-encodes as the 8-zero-byte absent form, so
`write_par` does not reproduce the buffer. -/
theorem C1_round_trip_cex :
    read_par c1CexBuf = some c1CexFile ∧ write_par c1CexFile ≠ c1CexBuf := by
  constructor
  · decide
  · decide

/-- C1 (amended): decode-then-encode is the identity on canonically encoded
buffers — for every byte buffer that is the encoding of a well-formed
model, `read_par` succeeds and `write_par` of the result returns the
identical buffer, trailing bytes included. -/
theorem C1_round_trip (data : List Byte) (M : ParFile) (hwf : wfParFile M = true)
    (hdata : data = write_par M) {par : ParFile} (hread : read_par data = some par) :
    write_par par = data := by
  subst hdata
  rw [read_par_write_par M hwf] at hread
  cases Option.some.inj hread
  rfl

/-- C1 — witness at the spec's minimal concrete file. -/
theorem C1_round_trip_witness :
    wfParFile parDemoFile = true ∧ write_par parDemoFile = parDemoBuf :=
  ⟨by decide, C1_round_trip parDemoBuf parDemoFile (by decide) rfl (by decide)⟩

/-- C2 — counterexample.  A present-but-empty array (marker 1, count 0)
decodes to the same empty sequence as an absent one, and re-encoding emits
the absent form: the presence marker is not reconstructed bit-for-bit. -/
theorem C2_presence_cex :
    read_extra_array readI32 c2CexBuf = some (([] : List Int), ([] : List Byte))
    ∧ write_extra_array writeI32 ([] : List Int) ++ ([] : List Byte) ≠ c2CexBuf := by
  constructor
  · decide
  · decide

/-- C2 (amended): re-encoding reproduces an array field's bytes — presence
marker included — exactly when the marker read was `0`, or was `1` with a
nonzero element count; a present-but-empty or nonzero-marker-other-than-one
encoding is collapsed to the canonical form. -/
theorem C2_presence (l : List Byte) (v : List Int) (rest : List Byte)
    (h : read_extra_array readI32 l = some (v, rest))
    (hmark : l.take 8 = writeU64 0 ∨ (l.take 8 = writeU64 1 ∧ v ≠ [])) :
    write_extra_array writeI32 v ++ rest = l :=
  (read_extra_array_inv readI32
    (fun hr => ⟨(readI32_canon hr).1, (readI32_canon hr).2⟩) h).2.2 hmark

/-- C2 — witness on a canonical two-element array encoding. -/
theorem C2_presence_witness :
    write_extra_array writeI32 [5, -7] ++ ([] : List Byte) = c2WitBuf :=
  C2_presence c2WitBuf [5, -7] [] (by decide) (Or.inr (by decide))

theorem readF32_canon {l : List Byte} {v : Nat} {r : List Byte}
    (h : readF32 l = some (v, r)) : l = writeF32 v ++ r ∧ v < 4294967296 := by
  unfold readF32 at h
  unfold writeF32
  exact readU32_canon h

theorem read_extra_array_marker0 {α : Type} (re : List Byte → Option (α × List Byte))
    (r : List Byte) :
    read_extra_array re (writeU64 0 ++ r) = some (([] : List α), r) := by
  unfold read_extra_array
  rw [readU64_writeU64 0 (by norm_num)]
  simp

theorem readElems_facts {α : Type} {P : α → Prop}
    (re : List Byte → Option (α × List Byte))
    (hP : ∀ {l v r}, re l = some (v, r) → P v) :
    ∀ {n : Nat} {l : List Byte} {vs : List α} {r : List Byte},
      readElems re n l = some (vs, r) → vs.length = n ∧ ∀ v ∈ vs, P v := by
  intro n
  induction n with
  | zero =>
    intro l vs r h
    unfold readElems at h
    simp only [Option.some.injEq, Prod.mk.injEq] at h
    obtain ⟨h1, h2⟩ := h
    subst h1
    simp
  | succ n ih =>
    intro l vs r h
    unfold readElems at h
    simp only [Option.bind_eq_bind] at h
    obtain ⟨⟨v, r1⟩, hre, h⟩ := Option.bind_eq_some.mp h
    obtain ⟨⟨vs2, r2⟩, hrec, h⟩ := Option.bind_eq_some.mp h
    simp only [Option.pure_def, Option.some.injEq, Prod.mk.injEq] at h
    obtain ⟨h1, h2⟩ := h
    subst h1
    obtain ⟨hn, hps⟩ := ih hrec
    refine ⟨by simp [hn], ?_⟩
    intro w hw
    rcases List.mem_cons.mp hw with hw2 | hw2
    · exact hw2 ▸ hP hre
    · exact hps w hw2

theorem read_extra_array_facts {α : Type} {P : α → Prop}
    (re : List Byte → Option (α × List Byte))
    (hP : ∀ {l v r}, re l = some (v, r) → P v)
    {l : List Byte} {vs : List α} {r : List Byte}
    (h : read_extra_array re l = some (vs, r)) :
    vs.length < 4294967296 ∧ ∀ v ∈ vs, P v := by
  unfold read_extra_array at h
  simp only [Option.bind_eq_bind] at h
  obtain ⟨⟨chk, r1⟩, hu, hk⟩ := Option.bind_eq_some.mp h
  dsimp only at hk
  by_cases hchk : chk = 0
  · rw [if_pos hchk] at hk
    simp only [Option.pure_def, Option.some.injEq, Prod.mk.injEq] at hk
    obtain ⟨h1, h2⟩ := hk
    subst h1
    exact ⟨by norm_num, by simp⟩
  · rw [if_neg hchk] at hk
    obtain ⟨⟨len, r2⟩, h32, hk2⟩ := Option.bind_eq_some.mp hk
    obtain ⟨hn, hps⟩ := readElems_facts re hP hk2
    exact ⟨by have := (readU32_canon h32).2; omega, hps⟩

theorem read_delphi_string_length {l : List Byte} {s : List Nat} {r : List Byte}
    (h : read_delphi_string l = some (s, r)) : s.length ≤ 1000000 := by
  unfold read_delphi_string at h
  simp only [Option.bind_eq_bind] at h
  obtain ⟨⟨len, r1⟩, hu, hk⟩ := Option.bind_eq_some.mp h
  dsimp only at hk
  by_cases h1 : len > 1000000
  · rw [if_pos h1] at hk
    simp at hk
  · rw [if_neg h1] at hk
    by_cases h2 : r1.length < len
    · rw [if_pos h2] at hk
      simp at hk
    · rw [if_neg h2] at hk
      simp only [Option.pure_def, Option.some.injEq, Prod.mk.injEq] at hk
      obtain ⟨hs, hr⟩ := hk
      subst hs
      rw [List.length_map, List.length_take]
      omega

/-- Re-reading the written form of an arbitrary (not necessarily decoded)
string returns its pointwise encode-then-decode image: same length, same
character order, non-ASCII code points lost to the image of `'?'`. -/
theorem read_write_delphi_string_norm (s : List Nat) (hlen : s.length ≤ 1000000)
    (r : List Byte) :
    read_delphi_string (write_delphi_string s ++ r)
      = some (s.map (fun c => decodeAsciiByte (encodeAsciiChar c)), r) := by
  unfold write_delphi_string read_delphi_string
  rw [List.append_assoc, readU32_writeU32 _ (by omega)]
  simp only [Option.bind_eq_bind, Option.some_bind]
  rw [if_neg (by omega)]
  have hml : (s.map encodeAsciiChar).length = s.length := List.length_map _ _
  rw [if_neg (by simp only [List.length_append, hml]; omega)]
  rw [List.take_left' hml, List.drop_left' hml]
  simp only [List.map_map, Option.pure_def, Option.some.injEq, Prod.mk.injEq]
  exact ⟨rfl, trivial⟩

theorem readElems_flatten_map {α : Type} (re : List Byte → Option (α × List Byte))
    (we : α → List Byte) (f : α → α) (vs : List α) (r : List Byte)
    (h : ∀ v ∈ vs, ∀ r2, re (we v ++ r2) = some (f v, r2)) :
    readElems re vs.length ((vs.map we).flatten ++ r) = some (vs.map f, r) := by
  induction vs with
  | nil => simp [readElems]
  | cons v vs ih =>
    simp only [List.map_cons, List.flatten_cons, List.length_cons, List.append_assoc]
    rw [readElems, h v (by simp)]
    simp only [Option.bind_eq_bind, Option.some_bind]
    rw [ih (fun w hw r2 => h w (by simp [hw]) r2)]
    rfl

theorem read_write_extra_array_map {α : Type} (re : List Byte → Option (α × List Byte))
    (we : α → List Byte) (f : α → α) (vs : List α) (r : List Byte)
    (hlen : vs.length < 4294967296) (hne : vs ≠ [])
    (h : ∀ v ∈ vs, ∀ r2, re (we v ++ r2) = some (f v, r2)) :
    read_extra_array re (write_extra_array we vs ++ r) = some (vs.map f, r) := by
  unfold write_extra_array read_extra_array
  cases vs with
  | nil => exact absurd rfl hne
  | cons v vs =>
    simp only [List.isEmpty_cons, if_false, Bool.false_eq_true, List.append_assoc]
    rw [readU64_writeU64 1 (by norm_num)]
    simp only [Option.bind_eq_bind, Option.some_bind, if_neg (by omega : ¬ (1 : Nat) = 0)]
    rw [readU32_writeU32 _ hlen]
    simp only [Option.some_bind]
    exact readElems_flatten_map re we f (v :: vs) r h

/-- C3: for each of the four array element kinds — int32, float32, uint32
and Delphi-ASCII strings — a presence marker of 0 decodes to the
zero-length sequence, and encoding a zero-length sequence emits exactly
8 zero bytes.  A non-empty array is always encoded as marker 1, the exact
element count, and the elements in their original order.  A decoded
non-empty numeric array re-encodes to a buffer that decodes back to
exactly the same elements; a decoded non-empty string array re-encodes to
a buffer that decodes back to the same number of strings in the same
order, each string the pointwise encode-then-decode image of the original
(equal length; non-ASCII replacement characters come back as the image of
`'?'`). -/
theorem C3_array_law :
    (∀ r : List Byte, read_extra_array readI32 (writeU64 0 ++ r) = some (([] : List Int), r))
    ∧ (∀ r : List Byte, read_extra_array readF32 (writeU64 0 ++ r) = some (([] : List Nat), r))
    ∧ (∀ r : List Byte, read_extra_array readU32 (writeU64 0 ++ r) = some (([] : List Nat), r))
    ∧ (∀ r : List Byte,
        read_extra_array read_delphi_string (writeU64 0 ++ r)
          = some (([] : List (List Nat)), r))
    ∧ write_extra_array writeI32 ([] : List Int) = [0, 0, 0, 0, 0, 0, 0, 0]
    ∧ write_extra_array writeF32 ([] : List Nat) = [0, 0, 0, 0, 0, 0, 0, 0]
    ∧ write_extra_array writeU32 ([] : List Nat) = [0, 0, 0, 0, 0, 0, 0, 0]
    ∧ write_extra_array write_delphi_string ([] : List (List Nat)) = [0, 0, 0, 0, 0, 0, 0, 0]
    ∧ (∀ (α : Type) (we : α → List Byte) (vs : List α), vs ≠ [] →
        write_extra_array we vs = writeU64 1 ++ writeU32 vs.length ++ (vs.map we).flatten)
    ∧ (∀ (l : List Byte) (v : List Int) (rest r2 : List Byte),
        read_extra_array readI32 l = some (v, rest) → v ≠ [] →
        read_extra_array readI32 (write_extra_array writeI32 v ++ r2) = some (v, r2))
    ∧ (∀ (l : List Byte) (v : List Nat) (rest r2 : List Byte),
        read_extra_array readF32 l = some (v, rest) → v ≠ [] →
        read_extra_array readF32 (write_extra_array writeF32 v ++ r2) = some (v, r2))
    ∧ (∀ (l : List Byte) (v : List Nat) (rest r2 : List Byte),
        read_extra_array readU32 l = some (v, rest) → v ≠ [] →
        read_extra_array readU32 (write_extra_array writeU32 v ++ r2) = some (v, r2))
    ∧ (∀ (l : List Byte) (vs : List (List Nat)) (rest r2 : List Byte),
        read_extra_array read_delphi_string l = some (vs, rest) → vs ≠ [] →
        read_extra_array read_delphi_string (write_extra_array write_delphi_string vs ++ r2)
          = some (vs.map (fun s => s.map (fun c => decodeAsciiByte (encodeAsciiChar c))), r2)) := by
  refine ⟨read_extra_array_marker0 readI32, read_extra_array_marker0 readF32,
    read_extra_array_marker0 readU32, read_extra_array_marker0 read_delphi_string,
    by decide, by decide, by decide, by decide, ?_, ?_, ?_, ?_, ?_⟩
  · intro α we vs hne
    unfold write_extra_array
    rw [if_neg (by simpa using hne)]
  · intro l v rest r2 h hne
    have hinv := read_extra_array_inv readI32
      (fun hr => ⟨(readI32_canon hr).1, (readI32_canon hr).2⟩) h
    exact read_write_extra_array readI32 writeI32 v r2 hinv.1
      (fun w hw r3 => readI32_writeI32 w (hinv.2.1 w hw).1 (hinv.2.1 w hw).2 r3)
  · intro l v rest r2 h hne
    have hinv := read_extra_array_inv readF32 (fun hr => readF32_canon hr) h
    exact read_write_extra_array readF32 writeF32 v r2 hinv.1
      (fun w hw r3 => readF32_writeF32 w (hinv.2.1 w hw) r3)
  · intro l v rest r2 h hne
    have hinv := read_extra_array_inv readU32 (fun hr => readU32_canon hr) h
    exact read_write_extra_array readU32 writeU32 v r2 hinv.1
      (fun w hw r3 => readU32_writeU32 w (hinv.2.1 w hw) r3)
  · intro l vs rest r2 h hne
    have hf := read_extra_array_facts read_delphi_string
      (fun hr => read_delphi_string_length hr) h
    exact read_write_extra_array_map read_delphi_string write_delphi_string
      (fun s => s.map (fun c => decodeAsciiByte (encodeAsciiChar c))) vs r2
      hf.1 hne (fun v hv r3 => read_write_delphi_string_norm v (hf.2 v hv) r3)

/-- C3 — witness: the non-empty clauses applied to a one-element int32
array and to a one-element string array holding a decoded replacement
character (`[65, 65533]`, parsed from the bytes `41 C8`), which re-decodes
with the same count and order as `[65, 63]`. -/
theorem C3_array_law_witness :
    (read_extra_array readI32 (write_extra_array writeI32 [5] ++ ([] : List Byte))
      = some ([5], ([] : List Byte)))
    ∧ read_extra_array read_delphi_string
        (write_extra_array write_delphi_string [[65, 65533]] ++ ([] : List Byte))
      = some ([[65, 63]], ([] : List Byte)) :=
  ⟨C3_array_law.2.2.2.2.2.2.2.2.2.1
      (writeU64 1 ++ writeU32 1 ++ writeI32 5) [5] [] [] (by decide) (by decide),
   C3_array_law.2.2.2.2.2.2.2.2.2.2.2.2
      (writeU64 1 ++ writeU32 1 ++ (writeU32 2 ++ [65, 200])) [[65, 65533]] [] []
      (by decide) (by decide)⟩

/-- C4: dual-stream envelope symmetry, for any compressor/decompressor pair
satisfying the zlib stream contract — output starts with the `0x78`
signature byte, is at least 4 bytes long, and decompressing a compressed
stream with trailing input returns exactly the payload and the trailing
input.  Encoding a container (starting with the PAR magic) with any header
and decoding again returns `(container, header, true)`. -/
theorem C4_envelope_symmetry
    (comp : List Byte → List Byte) (dec : List Byte → Option (List Byte × List Byte))
    (hsig : ∀ x, ∃ t, comp x = 120 :: t)
    (hlen : ∀ x, 4 ≤ (comp x).length)
    (hround : ∀ x r, dec (comp x ++ r) = some (x, r))
    (container header : List Byte) (hmagic : container.take 4 = PAR_MAGIC) :
    decompress_par_file dec (compress_par_file comp container (some header))
      = some (container, some header, true) := by
  unfold compress_par_file decompress_par_file
  have hl : ¬(((comp header ++ comp container) : List Byte).length < 4
      ∨ (comp header ++ comp container).head? ≠ some (120 : Byte)) := by
    push_neg
    constructor
    · have := hlen header
      simp only [List.length_append]
      omega
    · obtain ⟨t, ht⟩ := hsig header
      simp [ht]
  rw [if_neg hl, hround header (comp container)]
  dsimp only
  have hne : (comp container).isEmpty = false := by
    have h4 := hlen container
    cases hc : comp container with
    | nil => rw [hc] at h4; simp at h4
    | cons a t => simp
  rw [hne]
  simp only [Bool.false_eq_true, if_false]
  have hdc : dec (comp container) = some (container, []) := by
    have := hround container []
    simpa using this
  rw [hdc]
  dsimp only
  rw [if_pos hmagic]

theorem toyDecode_enc (x r : List Byte) : toyDecode (toyEnc x ++ r) = some (x, r) := by
  induction x with
  | nil =>
    simp only [toyEnc, List.cons_append, List.nil_append]
    rw [toyDecode.eq_def]
    simp
  | cons b bs ih =>
    simp only [toyEnc, List.cons_append]
    rw [toyDecode.eq_def]
    simp [ih, List.append_eq]

theorem toyDecompress_toyCompress (x r : List Byte) :
    toyDecompress (toyCompress x ++ r) = some (x, r) := by
  unfold toyCompress toyDecompress
  simp only [List.cons_append, List.take_succ_cons, List.take_zero, List.drop_succ_cons,
    List.drop_zero]
  simp only [show ([120, 156, 255] : List Byte) = [120, 156, 255] from rfl, if_pos,
    eq_self_iff_true, if_true]
  exact toyDecode_enc x r

theorem toyCompress_len (x : List Byte) : 4 ≤ (toyCompress x).length := by
  unfold toyCompress
  have h1 : 1 ≤ (toyEnc x).length := by
    cases x <;> simp [toyEnc]
  simp only [List.length_cons]
  omega

/-- C4 — witness: the toy stream codec, the PAR magic as container and a
three-byte header. -/
theorem C4_envelope_symmetry_witness :
    decompress_par_file toyDecompress
      (compress_par_file toyCompress PAR_MAGIC (some [1, 2, 3]))
      = some (PAR_MAGIC, some [1, 2, 3], true) :=
  C4_envelope_symmetry toyCompress toyDecompress
    (fun x => ⟨156 :: 255 :: toyEnc x, rfl⟩)
    toyCompress_len
    toyDecompress_toyCompress
    PAR_MAGIC [1, 2, 3] (by decide)

/-! ## The name dictionaries of the diff engine -/

theorem byName_append (es : List ParEntry) (e : ParEntry) :
    byName (es ++ [e])
      = fun nm => if nm = e.name then some (es.length, e) else byName es nm := by
  unfold byName
  rw [List.enum_append, List.foldl_append]
  simp [List.enumFrom]

theorem lastNameIdx_append (es : List ParEntry) (e : ParEntry) (nm : List Nat) :
    lastNameIdx (es ++ [e]) nm
      = if nm = e.name then some (es.length, e) else lastNameIdx es nm := by
  unfold lastNameIdx
  rw [List.enum_append]
  simp only [List.enumFrom, List.filter_append]
  by_cases h : nm = e.name
  · rw [if_pos h]
    rw [show List.filter (fun p => decide (p.2.name = nm)) [(es.length, e)]
        = [(es.length, e)] from by simp [List.filter, h]]
    exact List.getLast?_concat _
  · rw [if_neg h]
    rw [show List.filter (fun p => decide (p.2.name = nm)) [(es.length, e)]
        = [] from by
      simp only [List.filter_cons, List.filter_nil, decide_eq_true_eq]
      rw [if_neg (fun hc => h hc.symm)]]
    rw [List.append_nil]

/-- The overwrite-on-duplicate dictionary built by `_cmp_run_compare` agrees
with the last-occurrence description. -/
theorem byName_eq_last (es : List ParEntry) (nm : List Nat) :
    byName es nm = lastNameIdx es nm := by
  induction es using List.reverseRecOn with
  | nil => rfl
  | append_singleton es e ih =>
    rw [byName_append, lastNameIdx_append]
    by_cases h : nm = e.name
    · simp [h]
    · simp [h, ih]

theorem byName_some {es : List ParEntry} {nm : List Nat} {sei : Nat} {se : ParEntry}
    (h : byName es nm = some (sei, se)) : es[sei]? = some se ∧ se.name = nm := by
  induction es using List.reverseRecOn with
  | nil => exact absurd h (by simp [byName])
  | append_singleton es e ih =>
    rw [byName_append] at h
    replace h : (if nm = e.name then some (es.length, e) else byName es nm)
        = some (sei, se) := h
    by_cases hc : nm = e.name
    · rw [if_pos hc] at h
      simp only [Option.some.injEq, Prod.mk.injEq] at h
      obtain ⟨h1, h2⟩ := h
      subst h1
      subst h2
      exact ⟨List.getElem?_concat_length _ _, hc.symm⟩
    · rw [if_neg hc] at h
      obtain ⟨hg, hn⟩ := ih h
      have hlt : sei < es.length := by
        by_contra hge
        rw [List.getElem?_eq_none (by omega)] at hg
        exact Option.noConfusion hg
      refine ⟨?_, hn⟩
      rw [List.getElem?_append, if_pos hlt]
      exact hg

theorem byName_mem {es : List ParEntry} {nm : List Nat} {sei : Nat} {se : ParEntry}
    (h : byName es nm = some (sei, se)) : se ∈ es := by
  obtain ⟨hg, _⟩ := byName_some h
  obtain ⟨hlt, heq⟩ := List.getElem?_eq_some.mp hg
  exact heq ▸ List.getElem_mem hlt

/-! ## Diff reflexivity -/

theorem cmp_fields_equal_self (f : ParField) (h : finiteFloats f = true) :
    cmp_fields_equal f f = true := by
  unfold cmp_fields_equal
  rw [if_neg (show ¬¬f.dtype = f.dtype by simp)]
  unfold finiteFloats at h
  cases hv : f.value
  case vfloat b =>
    rw [hv] at h
    dsimp only at h
    simp only [Bool.not_eq_true', Bool.or_eq_false_iff] at h
    dsimp only
    unfold floatEqTol
    rw [h.1, h.2]
    simp only [Bool.or_self, Bool.false_eq_true, if_false]
    rw [sub_self, abs_zero]
    norm_num
  all_goals simp

theorem diffEntryFields_self (labels : Nat → Nat → Option (List Nat))
    (field_count li : Nat) (nm : List Nat) (sei iei : Nat) (se : ParEntry)
    (oe : Option ParEntry) (h : ∀ f ∈ se.fields, finiteFloats f = true) :
    diffEntryFields labels field_count li nm sei iei se se oe = [] := by
  unfold diffEntryFields
  rw [List.filterMap_eq_nil_iff]
  intro fi hfi
  rw [List.mem_range, Nat.max_self] at hfi
  have hget : se.fields[fi]? = some (se.fields[fi]) := List.getElem?_eq_getElem hfi
  simp only [hget]
  rw [cmp_fields_equal_self _ (h _ (List.getElem_mem hfi))]
  simp

theorem diffListBoth_self (labels : Nat → Nat → Option (List Nat)) (li : Nat)
    (sl : ParList) (ol : Option ParList)
    (h : ∀ e ∈ sl.entries, ∀ f ∈ e.fields, finiteFloats f = true) :
    diffListBoth labels li sl sl ol = [] := by
  unfold diffListBoth
  rw [List.flatten_eq_nil_iff]
  intro blk hblk
  rw [List.mem_map] at hblk
  obtain ⟨nm, hnm, hg⟩ := hblk
  subst hg
  cases hby : byName sl.entries nm with
  | none => simp only [hby]
  | some p =>
    obtain ⟨sei, se⟩ := p
    simp only [hby]
    exact diffEntryFields_self labels _ li nm sei sei se _
      (fun f hf => h se (byName_mem hby) f hf)

/-- C5 — counterexample.  A model with a NaN float32 field compared against
itself yields a diff record: `abs(nan - nan) < 1e-7` is false, so the
tolerance comparison reports the field as changed. -/
theorem C5_diff_reflexivity_cex :
    cmp_run_compare c5NanFile c5NanFile none labels0 ≠ [] := by decide

/-- C5 (amended): comparing a model with itself yields zero diff records
provided every scalar float32 field is finite; a NaN (or infinite) float
field compares unequal to itself under the absolute-tolerance rule. -/
theorem C5_diff_reflexivity (M : ParFile) (orig : Option ParFile)
    (labels : Nat → Nat → Option (List Nat)) (h : wfFloatsFile M = true) :
    cmp_run_compare M M orig labels = [] := by
  unfold cmp_run_compare
  rw [List.flatten_eq_nil_iff]
  intro blk hblk
  rw [List.mem_map] at hblk
  obtain ⟨li, hli, hg⟩ := hblk
  subst hg
  rw [List.mem_range, Nat.max_self] at hli
  have hget : M.lists[li]? = some (M.lists[li]) := List.getElem?_eq_getElem hli
  simp only [hget]
  apply diffListBoth_self
  intro e he f hf
  unfold wfFloatsFile at h
  simp only [List.all_eq_true] at h
  exact h (M.lists[li]) (List.getElem_mem hli) e he f hf

/-- C5 — witness at the spec's minimal file (whose only field is an int32). -/
theorem C5_diff_reflexivity_witness :
    cmp_run_compare parDemoFile parDemoFile none labels0 = [] :=
  C5_diff_reflexivity parDemoFile none labels0 (by decide)

/-! ## Baseline independence -/

theorem diffEntryFields_strip (labels : Nat → Nat → Option (List Nat))
    (field_count li : Nat) (nm : List Nat) (sei iei : Nat) (se ie : ParEntry)
    (oe1 oe2 : Option ParEntry) :
    (diffEntryFields labels field_count li nm sei iei se ie oe1).map stripOriginal
      = (diffEntryFields labels field_count li nm sei iei se ie oe2).map stripOriginal := by
  unfold diffEntryFields
  rw [List.map_filterMap, List.map_filterMap]
  apply List.filterMap_congr
  intro fi hfi
  dsimp only
  by_cases hs : (match se.fields[fi]?, ie.fields[fi]? with
    | some a, some b => cmp_fields_equal a b
    | _, _ => false) = true
  · rw [if_pos hs, if_pos hs]
  · rw [if_neg hs, if_neg hs]
    rfl

theorem diffListBoth_strip (labels : Nat → Nat → Option (List Nat)) (li : Nat)
    (sl il : ParList) (ol1 ol2 : Option ParList) :
    (diffListBoth labels li sl il ol1).map stripOriginal
      = (diffListBoth labels li sl il ol2).map stripOriginal := by
  unfold diffListBoth
  rw [List.map_flatten, List.map_flatten, List.map_map, List.map_map]
  apply congrArg List.flatten
  apply List.map_congr_left
  intro nm hnm
  dsimp only [Function.comp]
  cases hs : byName sl.entries nm with
  | none =>
    cases hi : byName il.entries nm with
    | none => rfl
    | some q => rfl
  | some p =>
    obtain ⟨sei, se⟩ := p
    cases hi : byName il.entries nm with
    | none => rfl
    | some q =>
      obtain ⟨iei, ie⟩ := q
      exact diffEntryFields_strip labels _ li nm sei iei se ie _ _

/-- C8: the optional baseline model never influences classification — for
any two baseline choices the diff runs produce the same records except for
the displayed baseline value (here erased by `stripOriginal`); type, list
index, entry name, field index, labels, displayed source/input values and
all stored coordinates coincide record-for-record. -/
theorem C8_baseline_independence (src inp : ParFile) (o1 o2 : Option ParFile)
    (labels : Nat → Nat → Option (List Nat)) :
    (cmp_run_compare src inp o1 labels).map stripOriginal
      = (cmp_run_compare src inp o2 labels).map stripOriginal := by
  unfold cmp_run_compare
  rw [List.map_flatten, List.map_flatten, List.map_map, List.map_map]
  apply congrArg List.flatten
  apply List.map_congr_left
  intro li hli
  dsimp only [Function.comp]
  cases hs : src.lists[li]? with
  | none =>
    cases hi : inp.lists[li]? with
    | none => rfl
    | some il => rfl
  | some sl =>
    cases hi : inp.lists[li]? with
    | none => rfl
    | some il => exact diffListBoth_strip labels li sl il _ _

/-! ## Coordinates stored in diff records -/

theorem mem_diffEntryFields {labels : Nat → Nat → Option (List Nat)}
    {field_count li : Nat} {nm : List Nat} {sei iei : Nat} {se ie : ParEntry}
    {oe : Option ParEntry} {rec : DiffRec}
    (h : rec ∈ diffEntryFields labels field_count li nm sei iei se ie oe) :
    rec.rtype = .changed ∧ rec.list_idx = li ∧ rec.entry_name = nm
      ∧ rec.src_ei = (sei : Int) ∧ rec.inp_ei = (iei : Int) := by
  unfold diffEntryFields at h
  rw [List.mem_filterMap] at h
  obtain ⟨fi, hfi, hr⟩ := h
  dsimp only at hr
  split at hr
  · exact absurd hr (by simp)
  · cases Option.some.inj hr
    exact ⟨rfl, rfl, rfl, rfl, rfl⟩

theorem mem_diffListBoth {labels : Nat → Nat → Option (List Nat)} {li : Nat}
    {sl il : ParList} {ol : Option ParList} {rec : DiffRec}
    (h : rec ∈ diffListBoth labels li sl il ol) :
    rec.list_idx = li
    ∧ (rec.rtype = .changed →
        ∃ sei se iei ie, byName sl.entries rec.entry_name = some (sei, se)
          ∧ byName il.entries rec.entry_name = some (iei, ie)
          ∧ rec.src_ei = (sei : Int) ∧ rec.inp_ei = (iei : Int))
    ∧ (rec.rtype = .source_only →
        ∃ sei se, byName sl.entries rec.entry_name = some (sei, se)
          ∧ rec.src_ei = (sei : Int) ∧ rec.inp_ei = -1)
    ∧ (rec.rtype = .input_only →
        ∃ iei ie, byName il.entries rec.entry_name = some (iei, ie)
          ∧ rec.inp_ei = (iei : Int) ∧ rec.src_ei = -1) := by
  unfold diffListBoth at h
  rw [List.mem_flatten] at h
  obtain ⟨blk, hblk, hrec⟩ := h
  rw [List.mem_map] at hblk
  obtain ⟨nm, hnm, hgen⟩ := hblk
  subst hgen
  cases hb1 : byName sl.entries nm with
  | none =>
    cases hb2 : byName il.entries nm with
    | none =>
      rw [hb1, hb2] at hrec
      exact absurd hrec (by simp)
    | some q =>
      obtain ⟨iei, ie⟩ := q
      rw [hb1, hb2] at hrec
      rw [List.mem_singleton] at hrec
      subst hrec
      refine ⟨rfl, fun hh => by simp at hh, fun hh => by simp at hh, fun _ => ?_⟩
      exact ⟨iei, ie, hb2, rfl, rfl⟩
  | some p =>
    obtain ⟨sei, se⟩ := p
    cases hb2 : byName il.entries nm with
    | none =>
      rw [hb1, hb2] at hrec
      rw [List.mem_singleton] at hrec
      subst hrec
      refine ⟨rfl, fun hh => by simp at hh, fun _ => ?_, fun hh => by simp at hh⟩
      exact ⟨sei, se, hb1, rfl, rfl⟩
    | some q =>
      obtain ⟨iei, ie⟩ := q
      rw [hb1, hb2] at hrec
      obtain ⟨hty, hli, hnm2, hsei, hiei⟩ := mem_diffEntryFields hrec
      refine ⟨hli, fun _ => ?_, fun hh => ?_, fun hh => ?_⟩
      · exact ⟨sei, se, iei, ie, hnm2 ▸ hb1, hnm2 ▸ hb2, hsei, hiei⟩
      · rw [hty] at hh
        simp at hh
      · rw [hty] at hh
        simp at hh

/-- C10: when both sides hold a list at the record's list index, every diff
record's stored entry coordinates are the last occurrences of its name on
each side — `byName` is built by overwriting earlier duplicates, so the
field comparison and the recorded coordinates refer to the highest-index
entry bearing the name, and earlier duplicates produce no record of their
own. -/
theorem C10_duplicate_names (src inp : ParFile) (orig : Option ParFile)
    (labels : Nat → Nat → Option (List Nat)) (rec : DiffRec) (li : Nat)
    (sl il : ParList)
    (hmem : rec ∈ cmp_run_compare src inp orig labels)
    (hli : rec.list_idx = li)
    (hs : src.lists[li]? = some sl) (hi : inp.lists[li]? = some il) :
    (rec.rtype = .changed →
      ∃ sei se iei ie, lastNameIdx sl.entries rec.entry_name = some (sei, se)
        ∧ lastNameIdx il.entries rec.entry_name = some (iei, ie)
        ∧ rec.src_ei = (sei : Int) ∧ rec.inp_ei = (iei : Int))
    ∧ (rec.rtype = .source_only →
      ∃ sei se, lastNameIdx sl.entries rec.entry_name = some (sei, se)
        ∧ rec.src_ei = (sei : Int) ∧ rec.inp_ei = -1)
    ∧ (rec.rtype = .input_only →
      ∃ iei ie, lastNameIdx il.entries rec.entry_name = some (iei, ie)
        ∧ rec.inp_ei = (iei : Int) ∧ rec.src_ei = -1) := by
  unfold cmp_run_compare at hmem
  rw [List.mem_flatten] at hmem
  obtain ⟨blk, hblk, hrec⟩ := hmem
  rw [List.mem_map] at hblk
  obtain ⟨li2, hli2, hgen⟩ := hblk
  subst hgen
  cases hs2 : src.lists[li2]? with
  | none =>
    cases hi2 : inp.lists[li2]? with
    | none =>
      rw [hs2, hi2] at hrec
      exact absurd hrec (by simp)
    | some il2 =>
      rw [hs2, hi2] at hrec
      rw [List.mem_map] at hrec
      obtain ⟨p, hp, hr⟩ := hrec
      have hidx : rec.list_idx = li2 := by rw [← hr]
      rw [hidx] at hli
      subst hli
      rw [hs2] at hs
      exact absurd hs (by simp)
  | some sl2 =>
    cases hi2 : inp.lists[li2]? with
    | none =>
      rw [hs2, hi2] at hrec
      rw [List.mem_map] at hrec
      obtain ⟨p, hp, hr⟩ := hrec
      have hidx : rec.list_idx = li2 := by rw [← hr]
      rw [hidx] at hli
      subst hli
      rw [hi2] at hi
      exact absurd hi (by simp)
    | some il2 =>
      rw [hs2, hi2] at hrec
      obtain ⟨hidx, hch, hso, hio⟩ := mem_diffListBoth hrec
      rw [hidx] at hli
      subst hli
      rw [hs2] at hs
      rw [hi2] at hi
      cases Option.some.inj hs
      cases Option.some.inj hi
      rw [byName_eq_last] at hch hso hio
      refine ⟨?_, ?_, ?_⟩
      · intro hh
        obtain ⟨sei, se, iei, ie, h1, h2, h3, h4⟩ := hch hh
        rw [byName_eq_last] at h2
        exact ⟨sei, se, iei, ie, h1, h2, h3, h4⟩
      · exact hso
      · exact hio

/-- C10 — witness: with the duplicated name `[78]` at source indices 0 and 1,
the produced record stores source index 1, the last occurrence. -/
theorem C10_duplicate_names_witness :
    (c10Rec.rtype = .changed →
      ∃ sei se iei ie, lastNameIdx c10SrcList.entries c10Rec.entry_name = some (sei, se)
        ∧ lastNameIdx c10InpList.entries c10Rec.entry_name = some (iei, ie)
        ∧ c10Rec.src_ei = (sei : Int) ∧ c10Rec.inp_ei = (iei : Int))
    ∧ (c10Rec.rtype = .source_only →
      ∃ sei se, lastNameIdx c10SrcList.entries c10Rec.entry_name = some (sei, se)
        ∧ c10Rec.src_ei = (sei : Int) ∧ c10Rec.inp_ei = -1)
    ∧ (c10Rec.rtype = .input_only →
      ∃ iei ie, lastNameIdx c10InpList.entries c10Rec.entry_name = some (iei, ie)
        ∧ c10Rec.inp_ei = (iei : Int) ∧ c10Rec.src_ei = -1) :=
  C10_duplicate_names c10Src c10Inp none labels0 c10Rec 0 c10SrcList c10InpList
    (by decide) rfl (by decide) (by decide)

/-! ## Merge: per-record behaviour -/

theorem getElem?_some_lt {α : Type} {l : List α} {i : Nat} {a : α}
    (h : l[i]? = some a) : i < l.length := by
  by_contra hge
  rw [List.getElem?_eq_none (by omega)] at h
  exact Option.noConfusion h

theorem cmp_merge_apply_changed
    {src inp : ParFile} {ch ad : Nat} {d : DiffRec}
    {sl : ParList} {se : ParEntry} {il : ParList} {ie : ParEntry} {inpf : ParField}
    {sli sei ili iei fi : Nat}
    (hty : d.rtype = .changed)
    (hsli : d.src_li = (sli : Int)) (hsei : d.src_ei = (sei : Int))
    (hili : d.inp_li = (ili : Int)) (hiei : d.inp_ei = (iei : Int))
    (hfi : d.field_idx = (fi : Int))
    (hsl : src.lists[sli]? = some sl) (hse : sl.entries[sei]? = some se)
    (hil : inp.lists[ili]? = some il) (hie : il.entries[iei]? = some ie)
    (hif : ie.fields[fi]? = some inpf) :
    cmp_merge_apply inp (src, ch, ad) d
      = some (mergeSetField src sli sei fi sl se ⟨inpf.dtype, inpf.value⟩, ch + 1, ad) := by
  have hsllt : sli < src.lists.length := getElem?_some_lt hsl
  have hselt : sei < sl.entries.length := getElem?_some_lt hse
  have hillt : ili < inp.lists.length := getElem?_some_lt hil
  have hielt : iei < il.entries.length := getElem?_some_lt hie
  have hiflt : fi < ie.fields.length := getElem?_some_lt hif
  unfold cmp_merge_apply
  rw [hty]
  dsimp only
  rw [hsli, hsei, hili, hiei, hfi]
  rw [if_pos ⟨Int.natCast_nonneg sli, Int.natCast_nonneg sei, by exact_mod_cast hsllt⟩]
  simp only [Int.toNat_natCast, List.getD_eq_getElem?_getD, hsl, Option.getD_some]
  rw [if_pos (show (sei : Int) < (sl.entries.length : Int) by exact_mod_cast hselt)]
  simp only [hse, Option.getD_some]
  rw [if_pos ⟨Int.natCast_nonneg ili, Int.natCast_nonneg iei, by exact_mod_cast hillt⟩]
  simp only [hil, Option.getD_some]
  rw [if_pos (show (iei : Int) < (il.entries.length : Int) by exact_mod_cast hielt)]
  simp only [hie, Option.getD_some]
  rw [if_pos (show (fi : Int) < (ie.fields.length : Int) by exact_mod_cast hiflt)]
  have hpad : (if (se.fields.length : Int) ≤ (fi : Int)
      then se.fields ++ List.replicate (((fi : Int) + 1 - se.fields.length).toNat) zeroField
      else se.fields)
      = se.fields ++ List.replicate (fi + 1 - se.fields.length) zeroField := by
    split_ifs with hc
    · congr 2
      omega
    · have hz : fi + 1 - se.fields.length = 0 := by omega
      rw [hz]
      simp
  rw [hpad]
  unfold getPyIdx
  rw [if_pos (Int.natCast_nonneg fi)]
  simp only [Int.toNat_natCast, hif]
  unfold setPyIdx
  rw [if_pos (Int.natCast_nonneg fi)]
  rw [if_pos (show (fi : Int)
      < ((se.fields ++ List.replicate (fi + 1 - se.fields.length) zeroField).length : Int) by
    simp only [List.length_append, List.length_replicate]
    have : fi < se.fields.length + (fi + 1 - se.fields.length) := by omega
    exact_mod_cast this)]
  simp only [Int.toNat_natCast]
  rfl

/-- C7: merging a single selected Changed record whose stored coordinates
resolve in both models locates the source entry by those coordinates, pads
its field list with zero-valued int32 fields up to the target index,
replaces the field at that index by a fresh field carrying the input
field's type tag and value, counts one changed field, and leaves the
version, trailing bytes, every other list, every other entry of the target
list, and every other pre-existing field of the target entry unchanged. -/
theorem C7_merge_changed
    (src inp : ParFile) (d : DiffRec)
    (sl : ParList) (se : ParEntry) (il : ParList) (ie : ParEntry) (inpf : ParField)
    (sli sei ili iei fi : Nat)
    (hty : d.rtype = .changed)
    (hsli : d.src_li = (sli : Int)) (hsei : d.src_ei = (sei : Int))
    (hili : d.inp_li = (ili : Int)) (hiei : d.inp_ei = (iei : Int))
    (hfi : d.field_idx = (fi : Int))
    (hsl : src.lists[sli]? = some sl) (hse : sl.entries[sei]? = some se)
    (hil : inp.lists[ili]? = some il) (hie : il.entries[iei]? = some ie)
    (hif : ie.fields[fi]? = some inpf) :
    cmp_merge src inp [d]
      = some (mergeSetField src sli sei fi sl se ⟨inpf.dtype, inpf.value⟩, 1, 0)
    ∧ (mergeSetField src sli sei fi sl se ⟨inpf.dtype, inpf.value⟩).version = src.version
    ∧ (mergeSetField src sli sei fi sl se ⟨inpf.dtype, inpf.value⟩).trailing_data
        = src.trailing_data
    ∧ (mergeSetField src sli sei fi sl se ⟨inpf.dtype, inpf.value⟩).lists.length
        = src.lists.length
    ∧ (∀ j, j ≠ sli →
        (mergeSetField src sli sei fi sl se ⟨inpf.dtype, inpf.value⟩).lists[j]?
          = src.lists[j]?)
    ∧ ∃ sl2, (mergeSetField src sli sei fi sl se ⟨inpf.dtype, inpf.value⟩).lists[sli]?
          = some sl2
        ∧ sl2.unknown1 = sl.unknown1 ∧ sl2.unknown2 = sl.unknown2
        ∧ sl2.entries.length = sl.entries.length
        ∧ (∀ k, k ≠ sei → sl2.entries[k]? = sl.entries[k]?)
        ∧ ∃ se2, sl2.entries[sei]? = some se2
            ∧ se2.name = se.name ∧ se2.unknown_byte = se.unknown_byte
            ∧ se2.unknown_u16a = se.unknown_u16a ∧ se2.unknown_u16b = se.unknown_u16b
            ∧ se2.fields.length = max se.fields.length (fi + 1)
            ∧ (∀ m, m ≠ fi → m < se.fields.length → se2.fields[m]? = se.fields[m]?)
            ∧ (∀ m, m ≠ fi → se.fields.length ≤ m → m < se2.fields.length →
                se2.fields[m]? = some zeroField)
            ∧ se2.fields[fi]? = some ⟨inpf.dtype, inpf.value⟩ := by
  have hsllt : sli < src.lists.length := getElem?_some_lt hsl
  have hselt : sei < sl.entries.length := getElem?_some_lt hse
  have hpadlen : (se.fields ++ List.replicate (fi + 1 - se.fields.length) zeroField).length
      = se.fields.length + (fi + 1 - se.fields.length) := by
    simp [List.length_append, List.length_replicate]
  have hfilt : fi < (se.fields ++ List.replicate (fi + 1 - se.fields.length) zeroField).length := by
    rw [hpadlen]
    omega
  refine ⟨?_, rfl, rfl, ?_, ?_, ?_⟩
  · unfold cmp_merge
    rw [List.foldlM_cons,
      cmp_merge_apply_changed hty hsli hsei hili hiei hfi hsl hse hil hie hif]
    simp [List.foldlM_nil]
  · unfold mergeSetField
    simp [List.length_set]
  · intro j hj
    unfold mergeSetField
    exact List.getElem?_set_ne (fun hc => hj hc.symm)
  · refine ⟨mergeSetFieldList sl sei fi se ⟨inpf.dtype, inpf.value⟩, ?_, rfl, rfl, ?_, ?_, ?_⟩
    · unfold mergeSetField
      exact List.getElem?_set_self hsllt
    · unfold mergeSetFieldList
      simp [List.length_set]
    · intro k hk
      unfold mergeSetFieldList
      exact List.getElem?_set_ne (fun hc => hk hc.symm)
    · refine ⟨mergeSetFieldEntry se fi ⟨inpf.dtype, inpf.value⟩, ?_, rfl, rfl, rfl, rfl,
        ?_, ?_, ?_, ?_⟩
      · unfold mergeSetFieldList
        exact List.getElem?_set_self hselt
      · unfold mergeSetFieldEntry
        simp only [List.length_set, hpadlen]
        omega
      · intro m hm hmlt
        unfold mergeSetFieldEntry
        rw [List.getElem?_set_ne (fun hc => hm hc.symm)]
        rw [List.getElem?_append, if_pos hmlt]
      · intro m hm hge hlt
        unfold mergeSetFieldEntry at hlt ⊢
        rw [List.getElem?_set_ne (fun hc => hm hc.symm)]
        rw [List.getElem?_append, if_neg (by omega)]
        rw [List.getElem?_replicate]
        rw [if_pos ?_]
        simp only [List.length_set, hpadlen] at hlt
        omega
      · unfold mergeSetFieldEntry
        exact List.getElem?_set_self hfilt

/-- C7 — witness: the padding scenario, target index 1 on a field-less
source entry. -/
theorem C7_merge_changed_witness :
    cmp_merge c7Src c7Inp [c7Rec]
      = some (mergeSetField c7Src 0 0 1 c7SrcList c7SrcEntry ⟨2, .vuint 7⟩, 1, 0) :=
  (C7_merge_changed c7Src c7Inp c7Rec c7SrcList c7SrcEntry c7InpList c7InpEntry
    ⟨2, .vuint 7⟩ 0 0 0 0 1 rfl rfl rfl rfl rfl rfl (by decide) (by decide) (by decide)
    (by decide) (by decide)).1

/-! ## Merge: monotone evolution of the source model -/

theorem setGetSame {α : Type} {l : List α} {i : Nat} {a : α}
    (h : l[i]? = some a) : l.set i a = l := by
  apply List.ext_getElem?
  intro j
  by_cases hj : i = j
  · subst hj
    rw [List.getElem?_set_self (getElem?_some_lt h), h]
  · rw [List.getElem?_set_ne hj]

theorem monoPres_refl (s : ParFile) (P : Nat → Nat → Nat → Prop) : MonoPres s s P := by
  refine ⟨le_refl _, fun li sl hsl => ⟨sl, hsl, le_refl _, fun ei e he => ?_⟩⟩
  exact ⟨e, he, rfl, fun fi f hf _ => hf⟩

theorem monoPres_trans {s t u : ParFile} {P Q : Nat → Nat → Nat → Prop}
    (h1 : MonoPres s t P) (h2 : MonoPres t u Q) :
    MonoPres s u (fun li ei fi => P li ei fi ∧ Q li ei fi) := by
  obtain ⟨hl1, hx1⟩ := h1
  obtain ⟨hl2, hx2⟩ := h2
  refine ⟨le_trans hl1 hl2, fun li sl hsl => ?_⟩
  obtain ⟨sl2, hsl2, hel1, hent1⟩ := hx1 li sl hsl
  obtain ⟨sl3, hsl3, hel2, hent2⟩ := hx2 li sl2 hsl2
  refine ⟨sl3, hsl3, le_trans hel1 hel2, fun ei e he => ?_⟩
  obtain ⟨e2, he2, hn1, hf1⟩ := hent1 ei e he
  obtain ⟨e3, he3, hn2, hf2⟩ := hent2 ei e2 he2
  refine ⟨e3, he3, hn2.trans hn1, fun fi f hf hp => ?_⟩
  exact hf2 fi f (hf1 fi f hf hp.1) hp.2

theorem monoPres_mono {s t : ParFile} {P Q : Nat → Nat → Nat → Prop}
    (h : MonoPres s t P) (hq : ∀ li ei fi, Q li ei fi → P li ei fi) :
    MonoPres s t Q := by
  obtain ⟨hl, hx⟩ := h
  refine ⟨hl, fun li sl hsl => ?_⟩
  obtain ⟨sl2, hsl2, hel, hent⟩ := hx li sl hsl
  refine ⟨sl2, hsl2, hel, fun ei e he => ?_⟩
  obtain ⟨e2, he2, hn, hf⟩ := hent ei e he
  exact ⟨e2, he2, hn, fun fi f hff hp => hf fi f hff (hq li ei fi hp)⟩

theorem monoPres_getCell {s t : ParFile} {P : Nat → Nat → Nat → Prop}
    {li ei fi : Nat} {f : ParField}
    (h : MonoPres s t P) (hc : getCell s li ei fi = some f) (hp : P li ei fi) :
    getCell t li ei fi = some f := by
  unfold getCell at hc ⊢
  cases hsl : s.lists[li]? with
  | none => rw [hsl] at hc; exact absurd hc (by simp)
  | some sl =>
    rw [hsl] at hc
    dsimp only at hc
    obtain ⟨sl2, hsl2, _, hent⟩ := h.2 li sl hsl
    rw [hsl2]
    dsimp only
    cases hse : sl.entries[ei]? with
    | none => rw [hse] at hc; exact absurd hc (by simp)
    | some se =>
      rw [hse] at hc
      dsimp only at hc
      obtain ⟨e2, he2, _, hf⟩ := hent ei se hse
      rw [he2]
      dsimp only
      exact hf fi f hc hp

theorem monoPres_hasName {s t : ParFile} {P : Nat → Nat → Nat → Prop}
    {li : Nat} {nm : List Nat}
    (h : MonoPres s t P) (hn : hasName s li nm) : hasName t li nm := by
  obtain ⟨tl, htl, e, hmem, hname⟩ := hn
  obtain ⟨tl2, htl2, _, hent⟩ := h.2 li tl htl
  obtain ⟨ei, hei⟩ := List.mem_iff_getElem?.mp hmem
  obtain ⟨e2, he2, hn2, _⟩ := hent ei e hei
  refine ⟨tl2, htl2, e2, ?_, hn2.trans hname⟩
  obtain ⟨hlt, heq⟩ := List.getElem?_eq_some.mp he2
  exact heq ▸ List.getElem_mem hlt

theorem monoPres_validChanged {s t inp : ParFile} {P : Nat → Nat → Nat → Prop}
    {d : DiffRec} (h : MonoPres s t P) (hv : validChanged s inp d) :
    validChanged t inp d := by
  intro hty
  obtain ⟨sli, sei, ili, iei, fi, h1, h2, h3, h4, h5, ⟨sl, hsl, se, hse⟩, hinp⟩ := hv hty
  obtain ⟨sl2, hsl2, _, hent⟩ := h.2 sli sl hsl
  obtain ⟨se2, hse2, _, _⟩ := hent sei se hse
  exact ⟨sli, sei, ili, iei, fi, h1, h2, h3, h4, h5, ⟨sl2, hsl2, se2, hse2⟩, hinp⟩

theorem cmp_merge_apply_source_only {inp : ParFile} {st : ParFile × Nat × Nat}
    {d : DiffRec} (hty : d.rtype = DiffType.source_only) :
    cmp_merge_apply inp st d = some st := by
  obtain ⟨s, ch, ad⟩ := st
  unfold cmp_merge_apply
  rw [hty]

theorem cmp_merge_apply_changed_skip
    {src inp : ParFile} {ch ad : Nat} {d : DiffRec}
    {sl : ParList} {se : ParEntry} {il : ParList} {ie : ParEntry}
    {sli sei ili iei fi : Nat}
    (hty : d.rtype = DiffType.changed)
    (hsli : d.src_li = (sli : Int)) (hsei : d.src_ei = (sei : Int))
    (hili : d.inp_li = (ili : Int)) (hiei : d.inp_ei = (iei : Int))
    (hfi : d.field_idx = (fi : Int))
    (hsl : src.lists[sli]? = some sl) (hse : sl.entries[sei]? = some se)
    (hil : inp.lists[ili]? = some il) (hie : il.entries[iei]? = some ie)
    (hge : ie.fields.length ≤ fi) :
    cmp_merge_apply inp (src, ch, ad) d = some (src, ch, ad) := by
  have hsllt : sli < src.lists.length := getElem?_some_lt hsl
  have hselt : sei < sl.entries.length := getElem?_some_lt hse
  have hillt : ili < inp.lists.length := getElem?_some_lt hil
  have hielt : iei < il.entries.length := getElem?_some_lt hie
  unfold cmp_merge_apply
  rw [hty]
  dsimp only
  rw [hsli, hsei, hili, hiei, hfi]
  rw [if_pos ⟨Int.natCast_nonneg sli, Int.natCast_nonneg sei, by exact_mod_cast hsllt⟩]
  simp only [Int.toNat_natCast, List.getD_eq_getElem?_getD, hsl, Option.getD_some]
  rw [if_pos (show (sei : Int) < (sl.entries.length : Int) by exact_mod_cast hselt)]
  simp only [hse, Option.getD_some]
  rw [if_pos ⟨Int.natCast_nonneg ili, Int.natCast_nonneg iei, by exact_mod_cast hillt⟩]
  simp only [hil, Option.getD_some]
  rw [if_pos (show (iei : Int) < (il.entries.length : Int) by exact_mod_cast hielt)]
  simp only [hie, Option.getD_some]
  rw [if_neg (show ¬((fi : Int) < (ie.fields.length : Int)) by
    push_neg
    exact_mod_cast hge)]

theorem cmp_merge_apply_input_only
    {src inp : ParFile} {ch ad : Nat} {d : DiffRec}
    {il : ParList} {ie : ParEntry} {ili iei : Nat}
    (hty : d.rtype = DiffType.input_only)
    (hili : d.inp_li = (ili : Int)) (hiei : d.inp_ei = (iei : Int))
    (hil : inp.lists[ili]? = some il) (hie : il.entries[iei]? = some ie) :
    cmp_merge_apply inp (src, ch, ad) d
      = some ((mergeAppendEntry src ili ie).1, ch, ad + (mergeAppendEntry src ili ie).2) := by
  have hillt : ili < inp.lists.length := getElem?_some_lt hil
  unfold cmp_merge_apply
  rw [hty]
  dsimp only
  rw [hili, hiei]
  rw [if_pos ⟨Int.natCast_nonneg ili, Int.natCast_nonneg iei, by exact_mod_cast hillt⟩]
  unfold mergeAppendEntry
  dsimp only
  simp only [Int.toNat_natCast, List.getD_eq_getElem?_getD, hil, Option.getD_some, hie]
  split
  · split
    · rfl
    · rfl
  · split
    · rfl
    · rfl

theorem monoPres_of_lists (src : ParFile) (L : List ParList) (P : Nat → Nat → Nat → Prop)
    (hlen : src.lists.length ≤ L.length)
    (hpres : ∀ (li : Nat) (sl : ParList), src.lists[li]? = some sl → ∃ sl2, L[li]? = some sl2
      ∧ sl.entries.length ≤ sl2.entries.length
      ∧ ∀ (ei : Nat) (e : ParEntry), sl.entries[ei]? = some e → sl2.entries[ei]? = some e) :
    MonoPres src { src with lists := L } P := by
  refine ⟨hlen, fun li sl h => ?_⟩
  obtain ⟨sl2, h1, h2, h3⟩ := hpres li sl h
  exact ⟨sl2, h1, h2, fun ei e he => ⟨e, h3 ei e he, rfl, fun fi f hf _ => hf⟩⟩

theorem monoPres_mergeSetField {src : ParFile} {sli sei fi : Nat} {sl : ParList}
    {se : ParEntry} {nf : ParField}
    (hsl : src.lists[sli]? = some sl) (hse : sl.entries[sei]? = some se) :
    MonoPres src (mergeSetField src sli sei fi sl se nf)
      (fun li ei fi2 => ¬(li = sli ∧ ei = sei ∧ fi2 = fi)) := by
  refine ⟨by unfold mergeSetField; simp [List.length_set], fun li sl' hsl' => ?_⟩
  unfold mergeSetField
  by_cases hli : li = sli
  · subst hli
    have hsl2 : sl' = sl := Option.some.inj (hsl' ▸ hsl)
    subst hsl2
    refine ⟨mergeSetFieldList sl' sei fi se nf,
      List.getElem?_set_self (getElem?_some_lt hsl), ?_, ?_⟩
    · unfold mergeSetFieldList
      simp [List.length_set]
    · intro ei e he
      unfold mergeSetFieldList
      by_cases hei : ei = sei
      · subst hei
        have hee : e = se := Option.some.inj (he ▸ hse)
        subst hee
        refine ⟨mergeSetFieldEntry e fi nf,
          List.getElem?_set_self (getElem?_some_lt hse), rfl, ?_⟩
        intro fi2 f hf hp
        unfold mergeSetFieldEntry
        have hfi2 : fi2 ≠ fi := fun hc => hp ⟨rfl, rfl, hc⟩
        rw [List.getElem?_set_ne (fun hc => hfi2 hc.symm), List.getElem?_append,
          if_pos (getElem?_some_lt hf)]
        exact hf
      · rw [List.getElem?_set_ne (fun hc => hei hc.symm)]
        exact ⟨e, he, rfl, fun fi2 f hf _ => hf⟩
  · rw [List.getElem?_set_ne (fun hc => hli hc.symm)]
    exact ⟨sl', hsl', le_refl _, fun ei e he => ⟨e, he, rfl, fun fi2 f hf _ => hf⟩⟩

theorem getCell_mergeSetField {src : ParFile} {sli sei fi : Nat} {sl : ParList}
    {se : ParEntry} {nf : ParField}
    (hsl : src.lists[sli]? = some sl) (hse : sl.entries[sei]? = some se) :
    getCell (mergeSetField src sli sei fi sl se nf) sli sei fi = some nf := by
  unfold getCell mergeSetField
  rw [List.getElem?_set_self (getElem?_some_lt hsl)]
  dsimp only
  unfold mergeSetFieldList
  rw [List.getElem?_set_self (getElem?_some_lt hse)]
  dsimp only
  unfold mergeSetFieldEntry
  apply List.getElem?_set_self
  simp only [List.length_append, List.length_replicate]
  omega

theorem mergeSetField_noop {src : ParFile} {sli sei fi : Nat} {sl : ParList}
    {se : ParEntry} {nf : ParField}
    (hsl : src.lists[sli]? = some sl) (hse : sl.entries[sei]? = some se)
    (hf : se.fields[fi]? = some nf) :
    mergeSetField src sli sei fi sl se nf = src := by
  have hflt : fi < se.fields.length := getElem?_some_lt hf
  have h1 : mergeSetFieldEntry se fi nf = se := by
    unfold mergeSetFieldEntry
    rw [show fi + 1 - se.fields.length = 0 from by omega, List.replicate_zero,
      List.append_nil, setGetSame hf]
  have h2 : mergeSetFieldList sl sei fi se nf = sl := by
    unfold mergeSetFieldList
    rw [h1, setGetSame hse]
  unfold mergeSetField
  rw [h2, setGetSame hsl]

theorem monoPres_mergeAppendEntry (src : ParFile) (ili : Nat) (ie : ParEntry)
    (P : Nat → Nat → Nat → Prop) :
    MonoPres src (mergeAppendEntry src ili ie).1 P := by
  unfold mergeAppendEntry
  dsimp only
  set L := (if src.lists.length ≤ ili
    then src.lists ++ List.replicate (ili + 1 - src.lists.length) emptyParList
    else src.lists) with hLdef
  have hpres : ∀ (li : Nat) (sl : ParList), src.lists[li]? = some sl → L[li]? = some sl := by
    intro li sl h
    rw [hLdef]
    split
    · rw [List.getElem?_append, if_pos (getElem?_some_lt h)]
      exact h
    · exact h
  have hlen : src.lists.length ≤ L.length := by
    rw [hLdef]
    split
    · simp
    · exact le_refl _
  split
  · exact monoPres_of_lists src _ P hlen
      (fun li sl h => ⟨sl, hpres li sl h, le_refl _, fun ei e he => he⟩)
  · apply monoPres_of_lists src _ P (by rw [List.length_set]; exact hlen)
    intro li sl h
    by_cases hli : li = ili
    · subst hli
      have htl : L.getD li emptyParList = sl := by
        rw [List.getD_eq_getElem?_getD, hpres li sl h]
        rfl
      refine ⟨_, List.getElem?_set_self (getElem?_some_lt (hpres li sl h)), ?_⟩
      rw [htl]
      dsimp only
      refine ⟨by simp, fun ei e he => ?_⟩
      rw [List.getElem?_append, if_pos (getElem?_some_lt he)]
      exact he
    · rw [List.getElem?_set_ne (fun hc => hli hc.symm)]
      exact ⟨sl, hpres li sl h, le_refl _, fun ei e he => he⟩

theorem hasName_mergeAppendEntry (src : ParFile) (ili : Nat) (ie : ParEntry) :
    hasName (mergeAppendEntry src ili ie).1 ili ie.name := by
  unfold mergeAppendEntry
  dsimp only
  set L := (if src.lists.length ≤ ili
    then src.lists ++ List.replicate (ili + 1 - src.lists.length) emptyParList
    else src.lists) with hLdef
  have hlen : ili < L.length := by
    rw [hLdef]
    split
    · simp only [List.length_append, List.length_replicate]
      omega
    · omega
  have htl : L[ili]? = some (L.getD ili emptyParList) := by
    rw [List.getD_eq_getElem?_getD, List.getElem?_eq_getElem hlen]
    rfl
  split
  case isTrue hany =>
    refine ⟨_, htl, ?_⟩
    obtain ⟨e, hmem, hname⟩ := List.any_eq_true.mp hany
    exact ⟨e, hmem, by simpa using hname⟩
  case isFalse hany =>
    refine ⟨_, List.getElem?_set_self hlen, ?_⟩
    refine ⟨deepCopyEntry ie, ?_, rfl⟩
    dsimp only
    exact List.mem_append_right _ (List.mem_singleton.mpr rfl)

theorem mergeAppendEntry_noop {src : ParFile} {ili : Nat} {ie : ParEntry} {tl : ParList}
    (htl : src.lists[ili]? = some tl) (hname : ∃ e ∈ tl.entries, e.name = ie.name) :
    mergeAppendEntry src ili ie = (src, 0) := by
  have hlt : ili < src.lists.length := getElem?_some_lt htl
  unfold mergeAppendEntry
  rw [if_neg (show ¬src.lists.length ≤ ili by omega)]
  dsimp only
  rw [List.getD_eq_getElem?_getD, htl]
  simp only [Option.getD_some]
  obtain ⟨e, hmem, hn⟩ := hname
  rw [if_pos (List.any_eq_true.mpr ⟨e, hmem, by simpa using hn⟩)]

theorem appliedChanged_true {inp : ParFile} {d : DiffRec} {il : ParList} {ie : ParEntry}
    {ili iei fi : Nat}
    (hty : d.rtype = DiffType.changed)
    (hili : d.inp_li = (ili : Int)) (hiei : d.inp_ei = (iei : Int))
    (hfi : d.field_idx = (fi : Int))
    (hil : inp.lists[ili]? = some il) (hie : il.entries[iei]? = some ie)
    (hlt : fi < ie.fields.length) :
    appliedChanged inp d = true := by
  unfold appliedChanged
  rw [hty, hili, hiei, hfi]
  rw [if_pos (Int.natCast_nonneg ili)]
  simp only [Int.toNat_natCast, hil]
  rw [if_pos (Int.natCast_nonneg iei)]
  simp only [Int.toNat_natCast, hie]
  simp only [decide_eq_true_eq, Bool.and_eq_true]
  exact ⟨trivial, by exact_mod_cast hlt⟩

theorem appliedChanged_false_skip {inp : ParFile} {d : DiffRec} {il : ParList}
    {ie : ParEntry} {ili iei fi : Nat}
    (hili : d.inp_li = (ili : Int)) (hiei : d.inp_ei = (iei : Int))
    (hfi : d.field_idx = (fi : Int))
    (hil : inp.lists[ili]? = some il) (hie : il.entries[iei]? = some ie)
    (hge : ie.fields.length ≤ fi) :
    appliedChanged inp d = false := by
  unfold appliedChanged
  rw [hili, hiei, hfi]
  rw [if_pos (Int.natCast_nonneg ili)]
  simp only [Int.toNat_natCast, hil]
  rw [if_pos (Int.natCast_nonneg iei)]
  simp only [Int.toNat_natCast, hie]
  simp only [Bool.and_eq_false_iff, decide_eq_false_iff_not]
  right
  push_neg
  exact_mod_cast hge

theorem appliedChanged_false_rtype {inp : ParFile} {d : DiffRec}
    (hty : d.rtype ≠ DiffType.changed) : appliedChanged inp d = false := by
  unfold appliedChanged
  simp [hty]

theorem nChanged_cons (inp : ParFile) (d : DiffRec) (ds : List DiffRec) :
    nChanged inp (d :: ds)
      = (if appliedChanged inp d = true then 1 else 0) + nChanged inp ds := by
  unfold nChanged
  rw [List.filter_cons]
  split
  · simp only [List.length_cons]
    omega
  · simp

theorem merge_fold_post (inp : ParFile) :
    ∀ (sel : List DiffRec) (s : ParFile) (ch ad : Nat) (out : ParFile × Nat × Nat),
    (∀ d ∈ sel, validChanged s inp d ∧ validInputOnly inp d) →
    sel.Pairwise keyDiff →
    List.foldlM (cmp_merge_apply inp) (s, ch, ad) sel = some out →
    (∀ d ∈ sel, PostChanged inp out.1 d ∧ PostInputOnly inp out.1 d)
    ∧ MonoPres s out.1 (fun li ei fi =>
        ∀ d ∈ sel, d.rtype = DiffType.changed →
          ¬(d.src_li = (li : Int) ∧ d.src_ei = (ei : Int) ∧ d.field_idx = (fi : Int)))
    ∧ out.2.1 = ch + nChanged inp sel := by
  intro sel
  induction sel with
  | nil =>
    intro s ch ad out hv hp h
    rw [List.foldlM_nil] at h
    cases Option.some.inj h
    exact ⟨by simp, monoPres_refl s _, by simp [nChanged]⟩
  | cons d ds ih =>
    intro s ch ad out hv hp h
    rw [List.foldlM_cons] at h
    obtain ⟨st1, h1, h2⟩ := Option.bind_eq_some.mp h
    obtain ⟨hpd, hpds⟩ := List.pairwise_cons.mp hp
    have hdmem : d ∈ d :: ds := List.mem_cons_self d ds
    cases hty : d.rtype
    case changed =>
      obtain ⟨sli, sei, ili, iei, fi, e1, e2, e3, e4, e5, ⟨sl, hsl, se, hse⟩,
        ⟨il, hil, ie, hie⟩⟩ := (hv d hdmem).1 hty
      by_cases hfl : fi < ie.fields.length
      · obtain ⟨inpf, hif⟩ : ∃ inpf, ie.fields[fi]? = some inpf :=
          ⟨_, List.getElem?_eq_getElem hfl⟩
        rw [cmp_merge_apply_changed hty e1 e2 e3 e4 e5 hsl hse hil hie hif] at h1
        cases Option.some.inj h1
        have hmono1 := @monoPres_mergeSetField s sli sei fi sl se
          (ParField.mk inpf.dtype inpf.value) hsl hse
        have hv2 : ∀ e ∈ ds, validChanged
            (mergeSetField s sli sei fi sl se ⟨inpf.dtype, inpf.value⟩) inp e
            ∧ validInputOnly inp e :=
          fun e he => ⟨monoPres_validChanged hmono1 (hv e (List.mem_cons_of_mem d he)).1,
            (hv e (List.mem_cons_of_mem d he)).2⟩
        obtain ⟨ihposts, ihmono, ihcnt⟩ := ih _ (ch + 1) ad out hv2 hpds h2
        refine ⟨?_, ?_, ?_⟩
        · intro e he
          rcases List.mem_cons.mp he with rfl | he2
          · constructor
            · intro hty2 sli' sei' ili' iei' fi' e1' e2' e3' e4' e5' il' ie' inpf'
                hil' hie' hif'
              rw [e1] at e1'
              rw [e2] at e2'
              rw [e3] at e3'
              rw [e4] at e4'
              rw [e5] at e5'
              cases Nat.cast_inj.mp e1'
              cases Nat.cast_inj.mp e2'
              cases Nat.cast_inj.mp e3'
              cases Nat.cast_inj.mp e4'
              cases Nat.cast_inj.mp e5'
              cases Option.some.inj (hil ▸ hil')
              cases Option.some.inj (hie ▸ hie')
              cases Option.some.inj (hif ▸ hif')
              apply monoPres_getCell ihmono (getCell_mergeSetField hsl hse)
              intro e3 he3 hty3 hk
              exact hpd e3 he3 hty hty3 ⟨by rw [e1, hk.1], by rw [e2, hk.2.1],
                by rw [e5, hk.2.2]⟩
            · intro hh
              rw [hty] at hh
              exact absurd hh (by decide)
          · exact ihposts e he2
        · apply monoPres_mono (monoPres_trans hmono1 ihmono)
          intro li ei fi2 hq
          constructor
          · intro hk
            exact hq d hdmem hty ⟨by rw [e1, hk.1], by rw [e2, hk.2.1], by rw [e5, hk.2.2]⟩
          · exact fun e he => hq e (List.mem_cons_of_mem d he)
        · rw [ihcnt, nChanged_cons, if_pos (appliedChanged_true hty e3 e4 e5 hil hie hfl)]
          omega
      · rw [cmp_merge_apply_changed_skip hty e1 e2 e3 e4 e5 hsl hse hil hie
          (by omega)] at h1
        cases Option.some.inj h1
        obtain ⟨ihposts, ihmono, ihcnt⟩ := ih s ch ad out
          (fun e he => hv e (List.mem_cons_of_mem d he)) hpds h2
        refine ⟨?_, ?_, ?_⟩
        · intro e he
          rcases List.mem_cons.mp he with rfl | he2
          · constructor
            · intro hty2 sli' sei' ili' iei' fi' e1' e2' e3' e4' e5' il' ie' inpf'
                hil' hie' hif'
              rw [e3] at e3'
              rw [e4] at e4'
              rw [e5] at e5'
              cases Nat.cast_inj.mp e3'
              cases Nat.cast_inj.mp e4'
              cases Nat.cast_inj.mp e5'
              cases Option.some.inj (hil ▸ hil')
              cases Option.some.inj (hie ▸ hie')
              exact absurd (getElem?_some_lt hif') (by omega)
            · intro hh
              rw [hty] at hh
              exact absurd hh (by decide)
          · exact ihposts e he2
        · apply monoPres_mono ihmono
          exact fun li ei fi2 hq => fun e he => hq e (List.mem_cons_of_mem d he)
        · rw [ihcnt, nChanged_cons,
            if_neg (by rw [appliedChanged_false_skip e3 e4 e5 hil hie (by omega)]; simp)]
          omega
    case input_only =>
      obtain ⟨ili, iei, e3, e4, il, hil, ie, hie⟩ := (hv d hdmem).2 hty
      rw [cmp_merge_apply_input_only hty e3 e4 hil hie] at h1
      cases Option.some.inj h1
      have hmono1 := monoPres_mergeAppendEntry s ili ie (fun _ _ _ => True)
      have hv2 : ∀ e ∈ ds, validChanged (mergeAppendEntry s ili ie).1 inp e
          ∧ validInputOnly inp e :=
        fun e he => ⟨monoPres_validChanged hmono1 (hv e (List.mem_cons_of_mem d he)).1,
          (hv e (List.mem_cons_of_mem d he)).2⟩
      obtain ⟨ihposts, ihmono, ihcnt⟩ := ih _ ch _ out hv2 hpds h2
      refine ⟨?_, ?_, ?_⟩
      · intro e he
        rcases List.mem_cons.mp he with rfl | he2
        · constructor
          · intro hh
            rw [hty] at hh
            exact absurd hh (by decide)
          · intro hty2 ili' iei' e3' e4' il' ie' hil' hie'
            rw [e3] at e3'
            rw [e4] at e4'
            cases Nat.cast_inj.mp e3'
            cases Nat.cast_inj.mp e4'
            cases Option.some.inj (hil ▸ hil')
            cases Option.some.inj (hie ▸ hie')
            exact monoPres_hasName ihmono (hasName_mergeAppendEntry s ili ie)
        · exact ihposts e he2
      · apply monoPres_mono (monoPres_trans hmono1 ihmono)
        intro li ei fi2 hq
        exact ⟨trivial, fun e he => hq e (List.mem_cons_of_mem d he)⟩
      · rw [ihcnt, nChanged_cons,
          if_neg (by rw [appliedChanged_false_rtype (by rw [hty]; decide)]; simp)]
        omega
    case source_only =>
      rw [cmp_merge_apply_source_only hty] at h1
      cases Option.some.inj h1
      obtain ⟨ihposts, ihmono, ihcnt⟩ := ih s ch ad out
        (fun e he => hv e (List.mem_cons_of_mem d he)) hpds h2
      refine ⟨?_, ?_, ?_⟩
      · intro e he
        rcases List.mem_cons.mp he with rfl | he2
        · constructor
          · intro hh
            rw [hty] at hh
            exact absurd hh (by decide)
          · intro hh
            rw [hty] at hh
            exact absurd hh (by decide)
        · exact ihposts e he2
      · apply monoPres_mono ihmono
        exact fun li ei fi2 hq => fun e he => hq e (List.mem_cons_of_mem d he)
      · rw [ihcnt, nChanged_cons,
          if_neg (by rw [appliedChanged_false_rtype (by rw [hty]; decide)]; simp)]
        omega

theorem merge_fold_stable (inp : ParFile) :
    ∀ (sel : List DiffRec) (m : ParFile) (ch ad : Nat),
    (∀ d ∈ sel, validChanged m inp d ∧ validInputOnly inp d) →
    (∀ d ∈ sel, PostChanged inp m d ∧ PostInputOnly inp m d) →
    List.foldlM (cmp_merge_apply inp) (m, ch, ad) sel
      = some (m, ch + nChanged inp sel, ad) := by
  intro sel
  induction sel with
  | nil =>
    intro m ch ad _ _
    rw [List.foldlM_nil]
    simp [nChanged]
  | cons d ds ih =>
    intro m ch ad hv hposts
    have hdmem : d ∈ d :: ds := List.mem_cons_self d ds
    have hvtail : ∀ e ∈ ds, validChanged m inp e ∧ validInputOnly inp e :=
      fun e he => hv e (List.mem_cons_of_mem d he)
    have hptail : ∀ e ∈ ds, PostChanged inp m e ∧ PostInputOnly inp m e :=
      fun e he => hposts e (List.mem_cons_of_mem d he)
    rw [List.foldlM_cons]
    cases hty : d.rtype
    case changed =>
      obtain ⟨sli, sei, ili, iei, fi, e1, e2, e3, e4, e5, ⟨sl, hsl, se, hse⟩,
        ⟨il, hil, ie, hie⟩⟩ := (hv d hdmem).1 hty
      by_cases hfl : fi < ie.fields.length
      · obtain ⟨inpf, hif⟩ : ∃ inpf, ie.fields[fi]? = some inpf :=
          ⟨_, List.getElem?_eq_getElem hfl⟩
        have hcell : getCell m sli sei fi = some ⟨inpf.dtype, inpf.value⟩ :=
          (hposts d hdmem).1 hty sli sei ili iei fi e1 e2 e3 e4 e5 il ie inpf hil hie hif
        unfold getCell at hcell
        rw [hsl] at hcell
        dsimp only at hcell
        rw [hse] at hcell
        dsimp only at hcell
        rw [cmp_merge_apply_changed hty e1 e2 e3 e4 e5 hsl hse hil hie hif,
          mergeSetField_noop hsl hse hcell]
        rw [Option.bind_eq_bind, Option.some_bind]
        rw [ih m (ch + 1) ad hvtail hptail]
        have hcnt : ch + 1 + nChanged inp ds = ch + nChanged inp (d :: ds) := by
          rw [nChanged_cons, if_pos (appliedChanged_true hty e3 e4 e5 hil hie hfl)]
          omega
        rw [hcnt]
      · rw [cmp_merge_apply_changed_skip hty e1 e2 e3 e4 e5 hsl hse hil hie (by omega)]
        rw [Option.bind_eq_bind, Option.some_bind]
        rw [ih m ch ad hvtail hptail]
        have hcnt : ch + nChanged inp ds = ch + nChanged inp (d :: ds) := by
          rw [nChanged_cons,
            if_neg (by rw [appliedChanged_false_skip e3 e4 e5 hil hie (by omega)]; simp)]
          omega
        rw [hcnt]
    case input_only =>
      obtain ⟨ili, iei, e3, e4, il, hil, ie, hie⟩ := (hv d hdmem).2 hty
      have hname : hasName m ili ie.name :=
        (hposts d hdmem).2 hty ili iei e3 e4 il ie hil hie
      obtain ⟨tl, htl, hex⟩ := hname
      rw [cmp_merge_apply_input_only hty e3 e4 hil hie,
        mergeAppendEntry_noop htl hex]
      dsimp only
      rw [Nat.add_zero, Option.bind_eq_bind, Option.some_bind]
      rw [ih m ch ad hvtail hptail]
      have hcnt : ch + nChanged inp ds = ch + nChanged inp (d :: ds) := by
        rw [nChanged_cons,
          if_neg (by rw [appliedChanged_false_rtype (by rw [hty]; decide)]; simp)]
        omega
      rw [hcnt]
    case source_only =>
      rw [cmp_merge_apply_source_only hty]
      rw [Option.bind_eq_bind, Option.some_bind]
      rw [ih m ch ad hvtail hptail]
      have hcnt : ch + nChanged inp ds = ch + nChanged inp (d :: ds) := by
        rw [nChanged_cons,
          if_neg (by rw [appliedChanged_false_rtype (by rw [hty]; decide)]; simp)]
        omega
      rw [hcnt]

/-- C6 (counterexample): merging the same selected diff set twice is not
the same as merging it once for arbitrary selections. Against the empty
source `c6Src`, record `c6RecB` first appends input entry `[78]` (value 1);
on the second run the `changed` record `c6RecA`, whose source coordinates
now resolve to that new entry, overwrites its field with input entry
`[77]`'s value 99, so the second application changes the model and the
counts again. -/
theorem C6_merge_twice_cex :
    (cmp_merge c6Src c6Inp [c6RecA, c6RecB]).bind
        (fun p => cmp_merge p.1 c6Inp [c6RecA, c6RecB])
      ≠ cmp_merge c6Src c6Inp [c6RecA, c6RecB] := by decide

/-- C6: the amended idempotence law. If every selected `changed` record's
source and input coordinates already resolve in the models, the selected
records target pairwise distinct source cells, and every `input_only`
record's input coordinates are well formed, then re-applying the merge to
its own output reproduces that output exactly: the model is unchanged, the
changed-field count is the same, and no entry is appended a second time
(the appended count of the second run is 0), because every targeted cell
already holds the copied input field and every appended name already
exists in its target list. -/
theorem C6_merge_idempotent
    (src inp : ParFile) (sel : List DiffRec) (m1 : ParFile) (c1 a1 : Nat)
    (hv : ∀ d ∈ sel, validChanged src inp d ∧ validInputOnly inp d)
    (hp : sel.Pairwise keyDiff)
    (h1 : cmp_merge src inp sel = some (m1, c1, a1)) :
    cmp_merge m1 inp sel = some (m1, c1, 0) := by
  unfold cmp_merge at h1 ⊢
  obtain ⟨hposts, hmono, hcnt⟩ := merge_fold_post inp sel src 0 0 (m1, c1, a1) hv hp h1
  have hc1 : c1 = nChanged inp sel := by simpa using hcnt
  have hv2 : ∀ d ∈ sel, validChanged m1 inp d ∧ validInputOnly inp d :=
    fun d hd => ⟨monoPres_validChanged hmono (hv d hd).1, (hv d hd).2⟩
  rw [merge_fold_stable inp sel m1 0 0 hv2 hposts, Nat.zero_add, ← hc1]

/-- C6 witness: a resolvable `changed` record applied to `c6WitSrc`; the
second merge run reproduces the first run's output `(c6WitM1, 1, 0)`. -/
theorem C6_merge_idempotent_witness :
    cmp_merge c6WitM1 c6Inp [c6WitRec] = some (c6WitM1, 1, 0) := by
  apply C6_merge_idempotent c6WitSrc c6Inp [c6WitRec] c6WitM1 1 0
  · intro d hd
    rw [List.mem_singleton] at hd
    subst hd
    refine ⟨fun _ => ⟨0, 0, 0, 0, 0, by decide, by decide, by decide, by decide,
      by decide, ⟨_, rfl, _, rfl⟩, ⟨_, rfl, _, rfl⟩⟩, fun hty => absurd hty (by decide)⟩
  · exact List.pairwise_singleton _ _
  · decide

theorem merge_fold_filter_source_only (inp : ParFile) :
    ∀ (sel : List DiffRec) (st : ParFile × Nat × Nat),
    List.foldlM (cmp_merge_apply inp) st sel
      = List.foldlM (cmp_merge_apply inp) st
          (sel.filter (fun d => !(decide (d.rtype = DiffType.source_only)))) := by
  intro sel
  induction sel with
  | nil => intro st; rfl
  | cons d ds ih =>
    intro st
    rw [List.filter_cons]
    by_cases hty : d.rtype = DiffType.source_only
    · rw [if_neg (by simp [hty])]
      obtain ⟨s, ch, ad⟩ := st
      rw [List.foldlM_cons, cmp_merge_apply_source_only hty,
        Option.bind_eq_bind, Option.some_bind]
      exact ih (s, ch, ad)
    · rw [if_pos (by simp [hty])]
      rw [List.foldlM_cons, List.foldlM_cons]
      cases h : cmp_merge_apply inp st d with
      | none => simp only [h, Option.bind_eq_bind, Option.none_bind]
      | some st2 =>
        simp only [h, Option.bind_eq_bind, Option.some_bind]
        exact ih st2

/-- C9 (counterexample): a selection consisting of a `SourceOnly` record is
not rejected by the merge. `_cmp_merge`'s per-record dispatch has branches
only for `changed` and `input_only`, so a `source_only` record falls
through silently: the merge succeeds, the model is returned unchanged and
both counts are 0 — it is treated exactly as having no effect, with no
error reported. -/
theorem C9_source_only_cex :
    cmp_merge c6Src c6Inp [c9Rec] = some (c6Src, 0, 0)
      ∧ c9Rec.rtype = DiffType.source_only := by decide

/-- C9: the amended statement. The merge silently skips `SourceOnly`
records rather than rejecting them: for every source, input and selection,
merging equals merging the selection with all `source_only` records
filtered out. (The rejection the spec describes happens only upstream, in
the checkbox click handler, which refuses to toggle a `source_only` row so
such records never enter the GUI's selection.) -/
theorem C9_source_only_ignored (src inp : ParFile) (sel : List DiffRec) :
    cmp_merge src inp sel
      = cmp_merge src inp
          (sel.filter (fun d => !(decide (d.rtype = DiffType.source_only)))) := by
  unfold cmp_merge
  exact merge_fold_filter_source_only inp sel (src, 0, 0)
